import Mathlib

/-!
Shallow embedding of the `rust-micheline` codec (`src/lib.rs`): the `Node`
tree, the zarith integer codec, the length-prefixed container framing, the
annotation packing and the tag-dispatching encoder/decoder, together with
proofs settling the specification's claims.

Modelling conventions: Rust `u8` buffers are `List Nat` whose entries are
byte values; `i32` values are `Int`, with two's-complement truncation
applied explicitly where the source casts bit patterns; `usize` casts are
taken modulo `2 ^ 64`.  Rust panics (out-of-bounds indexing or slicing, and
`expect` failures) are modelled as dedicated error values marked `isPanic`,
distinguishing them from the typed `Err` values the source returns.
-/

/-- Outcomes of a failed decode. `invalidValue` and `invalidPrim` model the
`Err` string results of the source; `oob` models the process abort caused
by an out-of-bounds index or slice; `badUtf8` models the abort of
`String::from_utf8(..).expect(..)`; `fuelOut` is an artifact of the
fuel-indexed embedding of the recursive decoder. -/
inductive DecErr where
  | invalidValue : DecErr
  | invalidPrim : DecErr
  | oob : DecErr
  | badUtf8 : DecErr
  | fuelOut : DecErr
deriving DecidableEq, Repr

/-- Rust `Err(&str)` results are typed errors handed to the caller; `oob`
and `badUtf8` model panics that abort the process instead. -/
def DecErr.isPanic : DecErr → Bool
  | .oob => true
  | .badUtf8 => true
  | _ => false

/-- The Micheline node tree (`enum Node<P>` of the source). Rust `String`
values are represented by their UTF-8 byte content, `Vec<u8>` by byte
lists, and `Annot = Vec<String>` by lists of UTF-8 byte contents. -/
inductive Node (P : Type) where
  | int (v : Int)
  | string (s : List Nat)
  | bytes (b : List Nat)
  | prim (p : P) (args : List (Node P)) (annot : List (List Nat))
  | seq (xs : List (Node P))

/-- Two's-complement reinterpretation of a bit pattern as an `i32`. -/
def toI32 (n : Nat) : Int :=
  if n % 2 ^ 32 < 2 ^ 31 then ((n % 2 ^ 32 : Nat) : Int)
  else ((n % 2 ^ 32 : Nat) : Int) - 2 ^ 32

/-- The 32-bit pattern of an `i32` (used where the source truncates). -/
def u32OfI32 (v : Int) : Nat := (v % 2 ^ 32).toNat

/-- Rust `as usize` on an `i32` sign-extends to 64 bits. -/
def usizeOfI32 (v : Int) : Nat := (v % 2 ^ 64).toNat

/-- `write_int_be`: the four big-endian bytes of an `i32`. -/
def writeIntBe (value : Int) : List Nat :=
  [u32OfI32 value >>> 24 &&& 0xff,
   u32OfI32 value >>> 16 &&& 0xff,
   u32OfI32 value >>> 8 &&& 0xff,
   u32OfI32 value &&& 0xff]

/-- `read_int_be`: a big-endian `i32` from the first four bytes; indexing
an absent byte is an out-of-bounds panic in the source. -/
def readIntBe : List Nat → Except DecErr Int
  | b0 :: b1 :: b2 :: b3 :: _ =>
      .ok (toI32 ((b0 <<< 24) ||| (b1 <<< 16) ||| (b2 <<< 8) ||| b3))
  | _ => .error .oob

/-- `write_array`: a 4-byte big-endian length followed by the raw bytes,
together with the reported size `4 + length`. -/
def writeArray (value : List Nat) : List Nat × Nat :=
  (writeIntBe (value.length : Int) ++ value, 4 + value.length)

/-- `read_vec`: read a 4-byte length, then copy that many payload bytes;
the slice `&buffer[4 .. size + 4]` panics when it overruns the buffer. -/
def readVec (buffer : List Nat) : Except DecErr (List Nat × Nat) := do
  let szI ← readIntBe buffer
  let size := usizeOfI32 szI
  if size + 4 ≤ buffer.length then
    .ok ((buffer.drop 4).take size, size + 4)
  else
    .error .oob

/-- A UTF-8 continuation byte `0x80 ..= 0xBF`. -/
def isUtf8Cont (b : Nat) : Bool := 0x80 ≤ b && b ≤ 0xBF

/-- The UTF-8 validity check performed by `String::from_utf8`. -/
def validUtf8 : List Nat → Bool
  | [] => true
  | b :: rest =>
    if b ≤ 0x7F then validUtf8 rest
    else if 0xC2 ≤ b && b ≤ 0xDF then
      match rest with
      | c1 :: rest2 => isUtf8Cont c1 && validUtf8 rest2
      | _ => false
    else if b = 0xE0 then
      match rest with
      | c1 :: c2 :: rest2 =>
          (0xA0 ≤ c1 && c1 ≤ 0xBF) && isUtf8Cont c2 && validUtf8 rest2
      | _ => false
    else if (0xE1 ≤ b && b ≤ 0xEC) || b = 0xEE || b = 0xEF then
      match rest with
      | c1 :: c2 :: rest2 => isUtf8Cont c1 && isUtf8Cont c2 && validUtf8 rest2
      | _ => false
    else if b = 0xED then
      match rest with
      | c1 :: c2 :: rest2 =>
          (0x80 ≤ c1 && c1 ≤ 0x9F) && isUtf8Cont c2 && validUtf8 rest2
      | _ => false
    else if b = 0xF0 then
      match rest with
      | c1 :: c2 :: c3 :: rest2 =>
          (0x90 ≤ c1 && c1 ≤ 0xBF) && isUtf8Cont c2 && isUtf8Cont c3 &&
            validUtf8 rest2
      | _ => false
    else if 0xF1 ≤ b && b ≤ 0xF3 then
      match rest with
      | c1 :: c2 :: c3 :: rest2 =>
          isUtf8Cont c1 && isUtf8Cont c2 && isUtf8Cont c3 && validUtf8 rest2
      | _ => false
    else if b = 0xF4 then
      match rest with
      | c1 :: c2 :: c3 :: rest2 =>
          (0x80 ≤ c1 && c1 ≤ 0x8F) && isUtf8Cont c2 && isUtf8Cont c3 &&
            validUtf8 rest2
      | _ => false
    else false

/-- The `split(" ")` of the decoded annotation text, on its UTF-8 bytes:
split at each `0x20`, keeping empty pieces; splitting empty text yields
one empty piece. -/
def splitOnSpace : List Nat → List (List Nat)
  | [] => [[]]
  | b :: rest =>
    if b = 0x20 then [] :: splitOnSpace rest
    else
      match splitOnSpace rest with
      | s :: ss => (b :: s) :: ss
      | [] => [[b]]

/-- The `join(" ")` of the annotation strings, on their UTF-8 bytes. -/
def joinSpace : List (List Nat) → List Nat
  | [] => []
  | [a] => a
  | a :: rest => a ++ 0x20 :: joinSpace rest

/-- `encode_annotation`: join with single spaces, then length-prefix. -/
def encodeAnnot (annot : List (List Nat)) : List Nat × Nat :=
  writeArray (joinSpace annot)

/-- `read_annotation`: read a length-prefixed blob, require UTF-8 (the
source panics otherwise), split on the space character. -/
def readAnnot (buffer : List Nat) : Except DecErr (List (List Nat) × Nat) := do
  let (vec, size) ← readVec buffer
  if validUtf8 vec then .ok (splitOnSpace vec, size) else .error .badUtf8

/-- The continuation groups of `write_zarith`: 7 bits per byte, the high
bit set while more groups remain; the loop terminates because the
remaining magnitude strictly decreases under the right shift. -/
def writeZarithRest (m : Nat) : List Nat :=
  if h : m = 0 then []
  else (if 0x7f < m then m &&& 0x7f ||| 0x80 else m &&& 0x7f) ::
    writeZarithRest (m >>> 7)
termination_by m
decreasing_by
  simp only [Nat.shiftRight_eq_div_pow]
  exact Nat.div_lt_self (Nat.pos_of_ne_zero h) (by norm_num)

/-- `write_zarith`: sign-magnitude; the first byte holds the low 6 bits of
the magnitude, the sign at bit 6 and a continuation flag at bit 7. `abs`
of the most negative `i32` overflows in the source; within the supported
range `Int.natAbs` agrees with it. -/
def writeZarith (value : Int) : List Nat :=
  let m := value.natAbs
  let first0 := if 0x3f < m then m &&& 0x3f ||| 0x80 else m &&& 0x3f
  let first := if value < 0 then first0 ||| 0x40 else first0
  first :: writeZarithRest (m >>> 6)

/-- The accumulation loop of `read_zarith`; reading past the end of the
buffer is an out-of-bounds panic in the source. -/
def readZarithLoop (rest : List Nat) (byte value shift index : Nat) :
    Except DecErr (Nat × Nat) :=
  if byte &&& 0x80 = 0x80 then
    match rest with
    | [] => .error .oob
    | b :: rest2 =>
        readZarithLoop rest2 b (value ||| (b &&& 0x7f) <<< shift) (shift + 7)
          (index + 1)
  else .ok (value, index)

/-- `read_zarith`: the first byte gives the low 6 bits and the sign,
continuation bytes OR 7-bit groups in at increasing shifts, and the sign
is applied at the end. -/
def readZarith : List Nat → Except DecErr (Int × Nat)
  | [] => .error .oob
  | b0 :: rest => do
      let (value, index) ← readZarithLoop rest b0 (b0 &&& 0x3f) 6 1
      .ok (if b0 &&& 0x40 = 0x40 then -(value : Int) else (value : Int), index)

/-- The `Encodable` capability of the primitive parameter `P`:
`encode_to_buffer` pushes the primitive's code bytes (both implementations
in the source report exactly the number of bytes they push, so the
reported size is the length of `enc`), and `decode_from_buffer` reads a
primitive back together with its size. -/
structure PrimCodec (P : Type) where
  enc : P → List Nat
  dec : List Nat → Except DecErr (P × Nat)

/-- The test-suite primitive of the source: a single code byte `0`. -/
inductive DummyPrimitive where
  | mk : DummyPrimitive
deriving DecidableEq, Repr

/-- The `Encodable` implementation of `DummyPrimitive`: push byte `0`;
decoding requires byte `0` (and indexing an empty buffer panics). -/
def dummyCodec : PrimCodec DummyPrimitive where
  enc := fun _ => [0]
  dec := fun buffer =>
    match buffer with
    | [] => .error .oob
    | b :: _ => if b ≠ 0 then .error .invalidPrim else .ok (.mk, 1)

mutual
/-- `Node::encode_to_buffer`: the bytes pushed and the size the source
reports.  For `String` and `Bytes` the branch returns `write_array`'s
count, which is one less than the number of bytes pushed, the tag byte
being left out. -/
def encodeToBuffer {P : Type} (c : PrimCodec P) : Node P → List Nat × Nat
  | .int v => ((0 : Nat) :: writeZarith v, (writeZarith v).length + 1)
  | .string s => ((1 : Nat) :: (writeArray s).1, (writeArray s).2)
  | .bytes b => ((10 : Nat) :: (writeArray b).1, (writeArray b).2)
  | .seq xs => ((2 : Nat) :: (writeList c xs).1, (writeList c xs).2 + 1)
  | .prim p args annot => encodePrimitive c p args annot
termination_by n => (sizeOf n, 0)

/-- `encode_primitive`: tag selection by argument count and annotation
emptiness, in the source's match order. -/
def encodePrimitive {P : Type} (c : PrimCodec P) (p : P) (args : List (Node P))
    (annot : List (List Nat)) : List Nat × Nat :=
  match args, annot with
  | [], [] => ((3 : Nat) :: c.enc p, (c.enc p).length + 1)
  | [], _ =>
      ((4 : Nat) :: c.enc p ++ (encodeAnnot annot).1,
       (c.enc p).length + (encodeAnnot annot).2 + 1)
  | [arg1], [] =>
      ((5 : Nat) :: c.enc p ++ (encodeToBuffer c arg1).1,
       (c.enc p).length + (encodeToBuffer c arg1).2 + 1)
  | [arg1], _ =>
      ((6 : Nat) :: c.enc p ++ (encodeToBuffer c arg1).1 ++ (encodeAnnot annot).1,
       (c.enc p).length + (encodeToBuffer c arg1).2 + (encodeAnnot annot).2 + 1)
  | [arg1, arg2], [] =>
      ((7 : Nat) :: c.enc p ++ (encodeToBuffer c arg1).1 ++ (encodeToBuffer c arg2).1,
       (c.enc p).length + (encodeToBuffer c arg1).2 + (encodeToBuffer c arg2).2 + 1)
  | [arg1, arg2], _ =>
      ((8 : Nat) :: c.enc p ++ (encodeToBuffer c arg1).1 ++ (encodeToBuffer c arg2).1
         ++ (encodeAnnot annot).1,
       (c.enc p).length + (encodeToBuffer c arg1).2 + (encodeToBuffer c arg2).2
         + (encodeAnnot annot).2 + 1)
  | argsN, annotN =>
      ((9 : Nat) :: c.enc p ++ (writeList c argsN).1 ++ (encodeAnnot annotN).1,
       (c.enc p).length + (writeList c argsN).2 + (encodeAnnot annotN).2 + 1)
termination_by (sizeOf args, 3)

/-- `write_list`: reserve four bytes, encode the children, backpatch the
reserved field with the reported total child size (cast to `i32`). -/
def writeList {P : Type} (c : PrimCodec P) (values : List (Node P)) : List Nat × Nat :=
  (writeIntBe ((encodeNodes c values).2 : Int) ++ (encodeNodes c values).1,
   (encodeNodes c values).2 + 4)
termination_by (sizeOf values, 2)

/-- The encoding loop of `write_list`: the concatenated child bytes and
the sum of the children's reported sizes. -/
def encodeNodes {P : Type} (c : PrimCodec P) : List (Node P) → List Nat × Nat
  | [] => ([], 0)
  | x :: rest =>
      ((encodeToBuffer c x).1 ++ (encodeNodes c rest).1,
       (encodeToBuffer c x).2 + (encodeNodes c rest).2)
termination_by l => (sizeOf l, 1)
end

/-- `Node::encode`: encode into a fresh buffer and return the bytes. -/
def Node.encode {P : Type} (c : PrimCodec P) (n : Node P) : List Nat :=
  (encodeToBuffer c n).1

mutual
/-- `Node::from_offset`: dispatch on the discriminant byte at `offset` (an
absent byte is an indexing panic); `fuel` bounds the recursion depth of
the embedding and is supplied generously by the entry points, whose
recursion strictly advances the cursor through the buffer. -/
def fromOffset {P : Type} (c : PrimCodec P) :
    Nat → List Nat → Nat → Except DecErr (Node P × Nat)
  | 0, _, _ => .error .fuelOut
  | fuel + 1, buffer, offset =>
    match buffer[offset]? with
    | none => .error .oob
    | some 0 => do
        let (value, size) ← readZarith (buffer.drop (offset + 1))
        .ok (.int value, size + 1)
    | some 1 => do
        let (value, size) ← readVec (buffer.drop (offset + 1))
        if validUtf8 value then .ok (.string value, size + 1)
        else .error .badUtf8
    | some 2 => do
        let (items, size) ← readList c fuel (buffer.drop (offset + 1))
        .ok (.seq items, size + 1)
    | some 3 => do
        let (prim, size) ← c.dec (buffer.drop (offset + 1))
        .ok (.prim prim [] [], size + 1)
    | some 4 => do
        let (prim, primSize) ← c.dec (buffer.drop (offset + 1))
        let (annot, annotSize) ← readAnnot (buffer.drop (offset + primSize + 1))
        .ok (.prim prim [] annot, primSize + annotSize + 1)
    | some 5 => do
        let (prim, primSize) ← c.dec (buffer.drop (offset + 1))
        let (arg, argSize) ← fromOffset c fuel buffer (offset + primSize + 1)
        .ok (.prim prim [arg] [], primSize + argSize + 1)
    | some 6 => do
        let (prim, primSize) ← c.dec (buffer.drop (offset + 1))
        let (arg, argSize) ← fromOffset c fuel buffer (offset + primSize + 1)
        let (annot, annotSize) ←
          readAnnot (buffer.drop (offset + primSize + argSize + 1))
        .ok (.prim prim [arg] annot, primSize + argSize + annotSize + 1)
    | some 7 => do
        let (prim, primSize) ← c.dec (buffer.drop (offset + 1))
        let (arg1, arg1Size) ← fromOffset c fuel buffer (offset + primSize + 1)
        let (arg2, arg2Size) ←
          fromOffset c fuel buffer (offset + primSize + arg1Size + 1)
        .ok (.prim prim [arg1, arg2] [], primSize + arg1Size + arg2Size + 1)
    | some 8 => do
        let (prim, primSize) ← c.dec (buffer.drop (offset + 1))
        let (arg1, arg1Size) ← fromOffset c fuel buffer (offset + primSize + 1)
        let (arg2, arg2Size) ←
          fromOffset c fuel buffer (offset + primSize + arg1Size + 1)
        let (annot, annotSize) ←
          readAnnot (buffer.drop (offset + primSize + arg1Size + arg2Size + 1))
        .ok (.prim prim [arg1, arg2] annot,
             primSize + arg1Size + arg2Size + annotSize + 1)
    | some 9 => do
        let (prim, primSize) ← c.dec (buffer.drop (offset + 1))
        let (args, argsSize) ← readList c fuel (buffer.drop (offset + primSize + 1))
        let (annot, annotSize) ←
          readAnnot (buffer.drop (offset + primSize + argsSize + 1))
        .ok (.prim prim args annot, primSize + argsSize + annotSize)
    | some 10 => do
        let (value, size) ← readVec (buffer.drop (offset + 1))
        .ok (.bytes value, size + 1)
    | some _ => .error .invalidValue
termination_by structural fuel _ _ => fuel

/-- `read_list`: read the declared payload size, then decode items while
the cursor stays below `size + 4` (the fuel argument is decremented once
more here, an artifact of the embedding). -/
def readList {P : Type} (c : PrimCodec P) :
    Nat → List Nat → Except DecErr (List (Node P) × Nat)
  | 0, _ => .error .fuelOut
  | fuel + 1, buffer => do
    let szI ← readIntBe buffer
    let items ← readListLoop c fuel buffer 4 (usizeOfI32 szI + 4)
    .ok (items, usizeOfI32 szI + 4)
termination_by structural fuel _ => fuel

/-- The item loop of `read_list`. -/
def readListLoop {P : Type} (c : PrimCodec P) :
    Nat → List Nat → Nat → Nat → Except DecErr (List (Node P))
  | 0, _, _, _ => .error .fuelOut
  | fuel + 1, buffer, offset, stop =>
    if offset < stop then do
      let (item, size) ← fromOffset c fuel buffer offset
      let rest ← readListLoop c fuel buffer (offset + size) stop
      .ok (item :: rest)
    else .ok []
termination_by structural fuel _ _ _ => fuel
end

/-- `Node::from_offset` as invoked from the entry point, with fuel the
recursion does not exhaust on the buffers considered in this file. -/
def nodeFromOffset {P : Type} (c : PrimCodec P) (buffer : List Nat)
    (offset : Nat) : Except DecErr (Node P × Nat) :=
  fromOffset c (buffer.length + 1) buffer offset

/-- `Node::from`: decode at offset `0` and discard the consumed size. -/
def nodeFrom {P : Type} (c : PrimCodec P) (buffer : List Nat) :
    Except DecErr (Node P) :=
  (nodeFromOffset c buffer 0).map Prod.fst

/-! Helper lemmas for evaluating and reasoning about the codec. -/

@[simp] theorem exceptOkBind {ε α β : Type} (a : α) (f : α → Except ε β) :
    (Except.ok a >>= f) = f a := rfl

@[simp] theorem exceptErrBind {ε α β : Type} (e : ε) (f : α → Except ε β) :
    ((Except.error e : Except ε α) >>= f) = Except.error e := rfl

@[simp] theorem natAnd63 (x : Nat) : x &&& 63 = x % 64 := by
  simpa using Nat.and_pow_two_sub_one_eq_mod x 6

@[simp] theorem natAnd127 (x : Nat) : x &&& 127 = x % 128 := by
  simpa using Nat.and_pow_two_sub_one_eq_mod x 7

@[simp] theorem natAnd255 (x : Nat) : x &&& 255 = x % 256 := by
  simpa using Nat.and_pow_two_sub_one_eq_mod x 8

@[simp] theorem natAnd128 (x : Nat) : x &&& 128 = x / 128 % 2 * 128 := by
  have h := Nat.and_two_pow x 7
  rw [Nat.testBit_to_div_mod] at h
  norm_num at h
  rcases Nat.mod_two_eq_zero_or_one (x / 128) with h2 | h2 <;> simp [h2] at h <;> omega

@[simp] theorem natAnd64 (x : Nat) : x &&& 64 = x / 64 % 2 * 64 := by
  have h := Nat.and_two_pow x 6
  rw [Nat.testBit_to_div_mod] at h
  norm_num at h
  rcases Nat.mod_two_eq_zero_or_one (x / 64) with h2 | h2 <;> simp [h2] at h <;> omega

section BranchLemmas

variable {P : Type} (c : PrimCodec P) (fuel : Nat) (buffer : List Nat) (offset : Nat)

theorem fromOffset_none (h : buffer[offset]? = none) :
    fromOffset c (fuel + 1) buffer offset = .error .oob := by
  rw [fromOffset, h]

theorem fromOffset_tag0 (h : buffer[offset]? = some 0) :
    fromOffset c (fuel + 1) buffer offset = (do
      let (value, size) ← readZarith (buffer.drop (offset + 1))
      .ok (.int value, size + 1)) := by
  rw [fromOffset, h]

theorem fromOffset_tag1 (h : buffer[offset]? = some 1) :
    fromOffset c (fuel + 1) buffer offset = (do
      let (value, size) ← readVec (buffer.drop (offset + 1))
      if validUtf8 value then .ok (.string value, size + 1)
      else .error .badUtf8) := by
  rw [fromOffset, h]

theorem fromOffset_tag2 (h : buffer[offset]? = some 2) :
    fromOffset c (fuel + 1) buffer offset = (do
      let (items, size) ← readList c fuel (buffer.drop (offset + 1))
      .ok (.seq items, size + 1)) := by
  rw [fromOffset, h]

theorem fromOffset_tag3 (h : buffer[offset]? = some 3) :
    fromOffset c (fuel + 1) buffer offset = (do
      let (prim, size) ← c.dec (buffer.drop (offset + 1))
      .ok (.prim prim [] [], size + 1)) := by
  rw [fromOffset, h]

theorem fromOffset_tag4 (h : buffer[offset]? = some 4) :
    fromOffset c (fuel + 1) buffer offset = (do
      let (prim, primSize) ← c.dec (buffer.drop (offset + 1))
      let (annot, annotSize) ← readAnnot (buffer.drop (offset + primSize + 1))
      .ok (.prim prim [] annot, primSize + annotSize + 1)) := by
  rw [fromOffset, h]

theorem fromOffset_tag5 (h : buffer[offset]? = some 5) :
    fromOffset c (fuel + 1) buffer offset = (do
      let (prim, primSize) ← c.dec (buffer.drop (offset + 1))
      let (arg, argSize) ← fromOffset c fuel buffer (offset + primSize + 1)
      .ok (.prim prim [arg] [], primSize + argSize + 1)) := by
  rw [fromOffset, h]

theorem fromOffset_tag6 (h : buffer[offset]? = some 6) :
    fromOffset c (fuel + 1) buffer offset = (do
      let (prim, primSize) ← c.dec (buffer.drop (offset + 1))
      let (arg, argSize) ← fromOffset c fuel buffer (offset + primSize + 1)
      let (annot, annotSize) ←
        readAnnot (buffer.drop (offset + primSize + argSize + 1))
      .ok (.prim prim [arg] annot, primSize + argSize + annotSize + 1)) := by
  rw [fromOffset, h]

theorem fromOffset_tag7 (h : buffer[offset]? = some 7) :
    fromOffset c (fuel + 1) buffer offset = (do
      let (prim, primSize) ← c.dec (buffer.drop (offset + 1))
      let (arg1, arg1Size) ← fromOffset c fuel buffer (offset + primSize + 1)
      let (arg2, arg2Size) ←
        fromOffset c fuel buffer (offset + primSize + arg1Size + 1)
      .ok (.prim prim [arg1, arg2] [], primSize + arg1Size + arg2Size + 1)) := by
  rw [fromOffset, h]

theorem fromOffset_tag8 (h : buffer[offset]? = some 8) :
    fromOffset c (fuel + 1) buffer offset = (do
      let (prim, primSize) ← c.dec (buffer.drop (offset + 1))
      let (arg1, arg1Size) ← fromOffset c fuel buffer (offset + primSize + 1)
      let (arg2, arg2Size) ←
        fromOffset c fuel buffer (offset + primSize + arg1Size + 1)
      let (annot, annotSize) ←
        readAnnot (buffer.drop (offset + primSize + arg1Size + arg2Size + 1))
      .ok (.prim prim [arg1, arg2] annot,
           primSize + arg1Size + arg2Size + annotSize + 1)) := by
  rw [fromOffset, h]

theorem fromOffset_tag9 (h : buffer[offset]? = some 9) :
    fromOffset c (fuel + 1) buffer offset = (do
      let (prim, primSize) ← c.dec (buffer.drop (offset + 1))
      let (args, argsSize) ← readList c fuel (buffer.drop (offset + primSize + 1))
      let (annot, annotSize) ←
        readAnnot (buffer.drop (offset + primSize + argsSize + 1))
      .ok (.prim prim args annot, primSize + argsSize + annotSize)) := by
  rw [fromOffset, h]

theorem fromOffset_tag10 (h : buffer[offset]? = some 10) :
    fromOffset c (fuel + 1) buffer offset = (do
      let (value, size) ← readVec (buffer.drop (offset + 1))
      .ok (.bytes value, size + 1)) := by
  rw [fromOffset, h]

theorem fromOffset_tagOther {t : Nat} (h : buffer[offset]? = some t)
    (h10 : 10 < t) :
    fromOffset c (fuel + 1) buffer offset = .error .invalidValue := by
  rw [fromOffset, h]
  match t, h10 with
  | t + 11, _ => rfl

theorem readListLoop_stop {stop : Nat} (h : ¬ offset < stop) :
    readListLoop c (fuel + 1) buffer offset stop = .ok [] := by
  rw [readListLoop, if_neg h]

theorem readListLoop_step {stop : Nat} (h : offset < stop) :
    readListLoop c (fuel + 1) buffer offset stop = (do
      let (item, size) ← fromOffset c fuel buffer offset
      let rest ← readListLoop c fuel buffer (offset + size) stop
      .ok (item :: rest)) := by
  rw [readListLoop, if_pos h]

end BranchLemmas


/-! Zarith codec correctness. -/

theorem lorSmall {s a : Nat} (b : Nat) (h : a < 2 ^ s) :
    a ||| b <<< s = a + b * 2 ^ s := by
  rw [Nat.shiftLeft_eq, Nat.lor_comm, mul_comm b (2 ^ s),
    ← Nat.mul_add_lt_is_or h b]
  omega

theorem orMul {k : Nat} (a c : Nat) (h : a < 2 ^ k) :
    a ||| 2 ^ k * c = a + 2 ^ k * c := by
  rw [Nat.lor_comm, ← Nat.mul_add_lt_is_or h c]
  omega

theorem writeZarithRest_zero : writeZarithRest 0 = [] := by
  rw [writeZarithRest]
  simp

theorem writeZarithRest_pos {m : Nat} (h : m ≠ 0) :
    writeZarithRest m =
      (if 0x7f < m then m &&& 0x7f ||| 0x80 else m &&& 0x7f) ::
        writeZarithRest (m >>> 7) := by
  rw [writeZarithRest]
  simp [h]

theorem readZarithLoop_done {rest : List Nat} {byte value shift index : Nat}
    (h : ¬ byte &&& 0x80 = 0x80) :
    readZarithLoop rest byte value shift index = .ok (value, index) := by
  rw [readZarithLoop.eq_def, if_neg h]

theorem readZarithLoop_go {byte value shift index b : Nat} {rest2 : List Nat}
    (h : byte &&& 0x80 = 0x80) :
    readZarithLoop (b :: rest2) byte value shift index =
      readZarithLoop rest2 b (value ||| (b &&& 0x7f) <<< shift) (shift + 7)
        (index + 1) := by
  rw [readZarithLoop.eq_def, if_pos h]

theorem readZarithLoop_spec :
    ∀ (m prev : Nat) (tail : List Nat) (value shift index : Nat),
      value < 2 ^ shift →
      (prev &&& 0x80 = 0x80 ↔ m ≠ 0) →
      readZarithLoop (writeZarithRest m ++ tail) prev value shift index =
        .ok (value + m * 2 ^ shift, index + (writeZarithRest m).length) := by
  intro m
  induction m using Nat.strong_induction_on with
  | _ m ih =>
    intro prev tail value shift index hv hprev
    by_cases hm : m = 0
    · subst hm
      rw [writeZarithRest_zero, List.nil_append,
        readZarithLoop_done (fun hx => (hprev.mp hx) rfl)]
      simp [writeZarithRest_zero]
    · have hshift : m >>> 7 = m / 128 := by
        rw [Nat.shiftRight_eq_div_pow]
      have hrec7 : m >>> 7 < m := by
        rw [hshift]; exact Nat.div_lt_self (Nat.pos_of_ne_zero hm) (by norm_num)
      have hpow : (0 : Nat) < 2 ^ shift := Nat.pos_pow_of_pos _ (by norm_num)
      have hbyteSum : (if 0x7f < m then m &&& 0x7f ||| 0x80 else m &&& 0x7f) =
          m % 128 + (if 0x7f < m then 128 else 0) := by
        by_cases h7 : 0x7f < m
        · simp only [if_pos h7, natAnd127]
          have := orMul (k := 7) (m % 128) 1 (by omega)
          norm_num at this
          omega
        · simp only [if_neg h7, natAnd127]
          omega
      set byte := if 0x7f < m then m &&& 0x7f ||| 0x80 else m &&& 0x7f with hbyte
      have hbyteAnd : byte &&& 0x7f = m % 128 := by
        rw [natAnd127, hbyteSum]
        by_cases h7 : 0x7f < m <;> simp [h7] <;> omega
      have hbyteBit : byte &&& 0x80 = 0x80 ↔ m >>> 7 ≠ 0 := by
        rw [natAnd128, hbyteSum, hshift]
        by_cases h7 : 0x7f < m <;> simp [h7] <;> omega
      have hnewLt : value ||| (byte &&& 0x7f) <<< shift < 2 ^ (shift + 7) := by
        rw [hbyteAnd, lorSmall _ hv]
        have h2 : 2 ^ (shift + 7) = 2 ^ shift * 128 := by
          rw [pow_add]; norm_num
        have h3 : m % 128 * 2 ^ shift ≤ 127 * 2 ^ shift :=
          Nat.mul_le_mul_right _ (by omega)
        omega
      rw [writeZarithRest_pos hm, List.cons_append,
        readZarithLoop_go (hprev.mpr hm),
        ih (m >>> 7) hrec7 byte tail _ (shift + 7) (index + 1) hnewLt hbyteBit]
      have hval : value ||| (byte &&& 0x7f) <<< shift =
          value + m % 128 * 2 ^ shift := by
        rw [hbyteAnd, lorSmall _ hv]
      rw [hval]
      have hcomb : value + m % 128 * 2 ^ shift + m >>> 7 * 2 ^ (shift + 7) =
          value + m * 2 ^ shift := by
        rw [hshift]
        have h2 : 2 ^ (shift + 7) = 128 * 2 ^ shift := by
          rw [pow_add]; ring
        rw [h2]
        have h4 : m % 128 + 128 * (m / 128) = m := Nat.mod_add_div m 128
        calc value + m % 128 * 2 ^ shift + m / 128 * (128 * 2 ^ shift)
            = value + (m % 128 + 128 * (m / 128)) * 2 ^ shift := by ring
          _ = value + m * 2 ^ shift := by rw [h4]
      rw [hcomb]
      simp only [List.length_cons]
      have harr : index + 1 + (writeZarithRest (m >>> 7)).length =
          index + ((writeZarithRest (m >>> 7)).length + 1) := by omega
      rw [harr]

/-- Decoding the zarith bytes of any integer (followed by arbitrary bytes)
recovers the integer and the byte count. -/
theorem readZarith_writeZarith (v : Int) (tail : List Nat) :
    readZarith (writeZarith v ++ tail) =
      .ok (v, (writeZarith v).length) := by
  simp only [writeZarith]
  set m := v.natAbs with hm
  set first0 := if 0x3f < m then m &&& 0x3f ||| 0x80 else m &&& 0x3f with hf0
  set first := if v < 0 then first0 ||| 0x40 else first0 with hf
  have hmod : m % 64 < 64 := Nat.mod_lt _ (by norm_num)
  have hfirst : first = m % 64 + (if 0x3f < m then 128 else 0) +
      (if v < 0 then 64 else 0) := by
    rw [hf, hf0]
    by_cases h6 : 0x3f < m <;> by_cases hs : v < 0 <;>
      simp only [if_pos, if_neg, h6, hs, ite_true, ite_false, natAnd63]
    · have h1 : m % 64 ||| 128 = m % 64 + 128 := by
        have h := orMul (k := 7) (m % 64) 1 (by omega)
        norm_num at h
        omega
      rw [h1]
      have h2 : m % 64 + 128 ||| 64 = m % 64 + 192 := by
        have h3 : m % 64 + 128 = 64 * (m % 64 / 64 * 0 + 2) + m % 64 := by omega
        have h := orMul (k := 6) (m % 64) 3 (by omega)
        norm_num at h
        calc m % 64 + 128 ||| 64 = m % 64 ||| 128 ||| 64 := by rw [h1]
          _ = m % 64 ||| (128 ||| 64) := by rw [Nat.lor_assoc]
          _ = m % 64 ||| 192 := by rw [(by decide : (128 : Nat) ||| 64 = 192)]
          _ = m % 64 + 192 := h
      omega
    · have h := orMul (k := 7) (m % 64) 1 (by omega)
      norm_num at h
      omega
    · have h := orMul (k := 6) (m % 64) 1 (by omega)
      norm_num at h
      omega
    · omega
  have h64 : (2 : Nat) ^ 6 = 64 := by norm_num
  have hshift : m >>> 6 = m / 64 := by
    rw [Nat.shiftRight_eq_div_pow, h64]
  have hA63 : first &&& 63 = m % 64 := by
    rw [natAnd63, hfirst]
    by_cases h6 : 0x3f < m <;> by_cases hs : v < 0 <;> simp [h6, hs] <;> omega
  have hbit128 : first &&& 128 = 128 ↔ m >>> 6 ≠ 0 := by
    rw [natAnd128, hfirst, hshift]
    by_cases h6 : 0x3f < m <;> by_cases hs : v < 0 <;> simp [h6, hs] <;> omega
  have hbit64 : first &&& 64 = 64 ↔ v < 0 := by
    rw [natAnd64, hfirst]
    by_cases h6 : 0x3f < m <;> by_cases hs : v < 0 <;> simp [h6, hs] <;> omega
  rw [List.cons_append, readZarith, hA63,
    readZarithLoop_spec (m >>> 6) first tail (m % 64) 6 1 (by omega) hbit128]
  simp only [exceptOkBind, List.length_cons]
  have hval : m % 64 + m >>> 6 * 2 ^ 6 = m := by
    rw [hshift, h64]
    omega
  rw [hval]
  by_cases hs : v < 0
  · rw [if_pos (hbit64.mpr hs)]
    have hneg : -(m : Int) = v := by
      rw [hm, Int.ofNat_natAbs_of_nonpos (le_of_lt hs)]
      simp
    rw [hneg]
    simp [Nat.add_comm]
  · rw [if_neg (fun hx => hs (hbit64.mp hx))]
    have hpos : (m : Int) = v := Int.natAbs_of_nonneg (by omega)
    rw [hpos]
    simp [Nat.add_comm]

/-! Decoding is unchanged by appending bytes after a successful parse. -/

theorem bindEqOk {ε α β : Type} {x : Except ε α} {g : α → Except ε β} {r : β} :
    (x >>= g) = .ok r ↔ ∃ a, x = .ok a ∧ g a = .ok r := by
  cases x with
  | error e => simp [exceptErrBind]
  | ok a => simp [exceptOkBind]

theorem readIntBe_ext {buf t : List Nat} {r : Int}
    (h : readIntBe buf = .ok r) : readIntBe (buf ++ t) = .ok r := by
  match buf with
  | b0 :: b1 :: b2 :: b3 :: rest => simpa [readIntBe] using h
  | [] => simp [readIntBe] at h
  | [b0] => simp [readIntBe] at h
  | [b0, b1] => simp [readIntBe] at h
  | [b0, b1, b2] => simp [readIntBe] at h

theorem readVec_ext {buf t : List Nat} {r : List Nat × Nat}
    (h : readVec buf = .ok r) : readVec (buf ++ t) = .ok r := by
  rw [readVec] at h ⊢
  rw [bindEqOk] at h ⊢
  obtain ⟨szI, hsz, hrest⟩ := h
  refine ⟨szI, readIntBe_ext hsz, ?_⟩
  by_cases hle : usizeOfI32 szI + 4 ≤ buf.length
  · rw [if_pos hle] at hrest
    have hle2 : usizeOfI32 szI + 4 ≤ (buf ++ t).length := by
      simp [List.length_append]; omega
    rw [if_pos hle2]
    rw [List.drop_append_eq_append_drop, List.take_append_eq_append_take]
    have h4 : (List.drop 4 buf).length = buf.length - 4 := by simp
    have hz : usizeOfI32 szI - (List.drop 4 buf).length = 0 := by omega
    rw [hz, List.take_zero, List.append_nil]
    exact hrest
  · rw [if_neg hle] at hrest
    exact absurd hrest (by simp)

theorem readAnnot_ext {buf t : List Nat} {r : List (List Nat) × Nat}
    (h : readAnnot buf = .ok r) : readAnnot (buf ++ t) = .ok r := by
  rw [readAnnot] at h ⊢
  rw [bindEqOk] at h ⊢
  obtain ⟨⟨vec, size⟩, hvec, hrest⟩ := h
  exact ⟨⟨vec, size⟩, readVec_ext hvec, hrest⟩

theorem readZarithLoop_ext {rest : List Nat} {byte value shift index : Nat}
    {t : List Nat} {r : Nat × Nat}
    (h : readZarithLoop rest byte value shift index = .ok r) :
    readZarithLoop (rest ++ t) byte value shift index = .ok r := by
  induction rest generalizing byte value shift index with
  | nil =>
    by_cases hb : byte &&& 0x80 = 0x80
    · rw [readZarithLoop.eq_def, if_pos hb] at h
      exact absurd h (by simp)
    · rw [readZarithLoop.eq_def, if_neg hb] at h
      rw [readZarithLoop_done hb]
      exact h
  | cons b rest2 ih =>
    by_cases hb : byte &&& 0x80 = 0x80
    · rw [readZarithLoop_go hb] at h
      rw [List.cons_append, readZarithLoop_go hb]
      exact ih h
    · rw [readZarithLoop_done hb] at h ⊢
      exact h

theorem readZarith_ext {buf t : List Nat} {r : Int × Nat}
    (h : readZarith buf = .ok r) : readZarith (buf ++ t) = .ok r := by
  match buf with
  | [] => simp [readZarith] at h
  | b0 :: rest =>
    rw [List.cons_append]
    rw [readZarith.eq_def] at h ⊢
    dsimp only at h ⊢
    rw [bindEqOk] at h ⊢
    obtain ⟨⟨value, index⟩, hloop, hrest⟩ := h
    exact ⟨⟨value, index⟩, readZarithLoop_ext hloop, hrest⟩

theorem decodeExt {P : Type} {c : PrimCodec P}
    (hc : ∀ (buf t : List Nat) (r : P × Nat),
      c.dec buf = .ok r → c.dec (buf ++ t) = .ok r) :
    ∀ f : Nat,
      (∀ (buffer : List Nat) (offset : Nat) (t : List Nat) (r : Node P × Nat),
        fromOffset c f buffer offset = .ok r →
        fromOffset c f (buffer ++ t) offset = .ok r) ∧
      (∀ (buffer t : List Nat) (r : List (Node P) × Nat),
        readList c f buffer = .ok r → readList c f (buffer ++ t) = .ok r) ∧
      (∀ (buffer : List Nat) (offset stop : Nat) (t : List Nat)
        (r : List (Node P)),
        readListLoop c f buffer offset stop = .ok r →
        readListLoop c f (buffer ++ t) offset stop = .ok r) := by
  intro f
  induction f with
  | zero =>
    refine ⟨?_, ?_, ?_⟩
    · intro buffer offset t r h
      rw [fromOffset] at h
      exact absurd h (by simp)
    · intro buffer t r h
      rw [readList] at h
      exact absurd h (by simp)
    · intro buffer offset stop t r h
      rw [readListLoop] at h
      exact absurd h (by simp)
  | succ f ih =>
    obtain ⟨ihF, ihL, ihLoop⟩ := ih
    have hdropA : ∀ (buffer t : List Nat) (X : Nat),
        (buffer ++ t).drop X = buffer.drop X ++ t.drop (X - buffer.length) :=
      fun _ _ _ => List.drop_append_eq_append_drop
    refine ⟨?_, ?_, ?_⟩
    · intro buffer offset t r h
      cases hb : buffer[offset]? with
      | none =>
        rw [fromOffset_none _ _ _ _ hb] at h
        exact absurd h (by simp)
      | some tag =>
        have hoff : offset < buffer.length := by
          rcases List.getElem?_eq_some.mp hb with ⟨hlt, _⟩
          exact hlt
        have hb2 : (buffer ++ t)[offset]? = some tag := by
          rw [List.getElem?_append_left hoff]
          exact hb
        rcases tag with _|_|_|_|_|_|_|_|_|_|_|tag
        · -- tag 0 : Int
          rw [fromOffset_tag0 _ _ _ _ hb] at h
          rw [fromOffset_tag0 _ _ _ _ hb2]
          simp only [hdropA]
          rw [bindEqOk] at h ⊢
          obtain ⟨⟨value, size⟩, hz, hrest⟩ := h
          exact ⟨⟨value, size⟩, readZarith_ext hz, hrest⟩
        · -- tag 1 : String
          rw [fromOffset_tag1 _ _ _ _ hb] at h
          rw [fromOffset_tag1 _ _ _ _ hb2]
          simp only [hdropA]
          rw [bindEqOk] at h ⊢
          obtain ⟨⟨value, size⟩, hv, hrest⟩ := h
          exact ⟨⟨value, size⟩, readVec_ext hv, hrest⟩
        · -- tag 2 : Seq
          rw [fromOffset_tag2 _ _ _ _ hb] at h
          rw [fromOffset_tag2 _ _ _ _ hb2]
          simp only [hdropA]
          rw [bindEqOk] at h ⊢
          obtain ⟨⟨items, size⟩, hl, hrest⟩ := h
          exact ⟨⟨items, size⟩, ihL _ _ _ hl, hrest⟩
        · -- tag 3 : Prim, no args, no annot
          rw [fromOffset_tag3 _ _ _ _ hb] at h
          rw [fromOffset_tag3 _ _ _ _ hb2]
          simp only [hdropA]
          rw [bindEqOk] at h ⊢
          obtain ⟨⟨prim, size⟩, hp, hrest⟩ := h
          exact ⟨⟨prim, size⟩, hc _ _ _ hp, hrest⟩
        · -- tag 4 : Prim, no args, annot
          rw [fromOffset_tag4 _ _ _ _ hb] at h
          rw [fromOffset_tag4 _ _ _ _ hb2]
          simp only [hdropA]
          rw [bindEqOk] at h ⊢
          obtain ⟨⟨prim, primSize⟩, hp, h⟩ := h
          refine ⟨⟨prim, primSize⟩, hc _ _ _ hp, ?_⟩
          dsimp only at h ⊢
          rw [bindEqOk] at h ⊢
          obtain ⟨⟨annot, annotSize⟩, ha, h⟩ := h
          exact ⟨⟨annot, annotSize⟩, readAnnot_ext ha, h⟩
        · -- tag 5 : Prim, one arg, no annot
          rw [fromOffset_tag5 _ _ _ _ hb] at h
          rw [fromOffset_tag5 _ _ _ _ hb2]
          simp only [hdropA]
          rw [bindEqOk] at h ⊢
          obtain ⟨⟨prim, primSize⟩, hp, h⟩ := h
          refine ⟨⟨prim, primSize⟩, hc _ _ _ hp, ?_⟩
          dsimp only at h ⊢
          rw [bindEqOk] at h ⊢
          obtain ⟨⟨arg, argSize⟩, harg, h⟩ := h
          exact ⟨⟨arg, argSize⟩, ihF _ _ _ _ harg, h⟩
        · -- tag 6 : Prim, one arg, annot
          rw [fromOffset_tag6 _ _ _ _ hb] at h
          rw [fromOffset_tag6 _ _ _ _ hb2]
          simp only [hdropA]
          rw [bindEqOk] at h ⊢
          obtain ⟨⟨prim, primSize⟩, hp, h⟩ := h
          refine ⟨⟨prim, primSize⟩, hc _ _ _ hp, ?_⟩
          dsimp only at h ⊢
          rw [bindEqOk] at h ⊢
          obtain ⟨⟨arg, argSize⟩, harg, h⟩ := h
          refine ⟨⟨arg, argSize⟩, ihF _ _ _ _ harg, ?_⟩
          dsimp only at h ⊢
          rw [bindEqOk] at h ⊢
          obtain ⟨⟨annot, annotSize⟩, ha, h⟩ := h
          exact ⟨⟨annot, annotSize⟩, readAnnot_ext ha, h⟩
        · -- tag 7 : Prim, two args, no annot
          rw [fromOffset_tag7 _ _ _ _ hb] at h
          rw [fromOffset_tag7 _ _ _ _ hb2]
          simp only [hdropA]
          rw [bindEqOk] at h ⊢
          obtain ⟨⟨prim, primSize⟩, hp, h⟩ := h
          refine ⟨⟨prim, primSize⟩, hc _ _ _ hp, ?_⟩
          dsimp only at h ⊢
          rw [bindEqOk] at h ⊢
          obtain ⟨⟨arg1, arg1Size⟩, harg1, h⟩ := h
          refine ⟨⟨arg1, arg1Size⟩, ihF _ _ _ _ harg1, ?_⟩
          dsimp only at h ⊢
          rw [bindEqOk] at h ⊢
          obtain ⟨⟨arg2, arg2Size⟩, harg2, h⟩ := h
          exact ⟨⟨arg2, arg2Size⟩, ihF _ _ _ _ harg2, h⟩
        · -- tag 8 : Prim, two args, annot
          rw [fromOffset_tag8 _ _ _ _ hb] at h
          rw [fromOffset_tag8 _ _ _ _ hb2]
          simp only [hdropA]
          rw [bindEqOk] at h ⊢
          obtain ⟨⟨prim, primSize⟩, hp, h⟩ := h
          refine ⟨⟨prim, primSize⟩, hc _ _ _ hp, ?_⟩
          dsimp only at h ⊢
          rw [bindEqOk] at h ⊢
          obtain ⟨⟨arg1, arg1Size⟩, harg1, h⟩ := h
          refine ⟨⟨arg1, arg1Size⟩, ihF _ _ _ _ harg1, ?_⟩
          dsimp only at h ⊢
          rw [bindEqOk] at h ⊢
          obtain ⟨⟨arg2, arg2Size⟩, harg2, h⟩ := h
          refine ⟨⟨arg2, arg2Size⟩, ihF _ _ _ _ harg2, ?_⟩
          dsimp only at h ⊢
          rw [bindEqOk] at h ⊢
          obtain ⟨⟨annot, annotSize⟩, ha, h⟩ := h
          exact ⟨⟨annot, annotSize⟩, readAnnot_ext ha, h⟩
        · -- tag 9 : Prim, general
          rw [fromOffset_tag9 _ _ _ _ hb] at h
          rw [fromOffset_tag9 _ _ _ _ hb2]
          simp only [hdropA]
          rw [bindEqOk] at h ⊢
          obtain ⟨⟨prim, primSize⟩, hp, h⟩ := h
          refine ⟨⟨prim, primSize⟩, hc _ _ _ hp, ?_⟩
          dsimp only at h ⊢
          rw [bindEqOk] at h ⊢
          obtain ⟨⟨args, argsSize⟩, hargs, h⟩ := h
          refine ⟨⟨args, argsSize⟩, ihL _ _ _ hargs, ?_⟩
          dsimp only at h ⊢
          rw [bindEqOk] at h ⊢
          obtain ⟨⟨annot, annotSize⟩, ha, h⟩ := h
          exact ⟨⟨annot, annotSize⟩, readAnnot_ext ha, h⟩
        · -- tag 10 : Bytes
          rw [fromOffset_tag10 _ _ _ _ hb] at h
          rw [fromOffset_tag10 _ _ _ _ hb2]
          simp only [hdropA]
          rw [bindEqOk] at h ⊢
          obtain ⟨⟨value, size⟩, hv, hrest⟩ := h
          exact ⟨⟨value, size⟩, readVec_ext hv, hrest⟩
        · -- unknown tag
          rw [fromOffset_tagOther _ _ _ _ hb (by omega)] at h
          exact absurd h (by simp)
    · intro buffer t r h
      rw [readList] at h ⊢
      rw [bindEqOk] at h ⊢
      obtain ⟨szI, hsz, h⟩ := h
      refine ⟨szI, readIntBe_ext hsz, ?_⟩
      dsimp only at h ⊢
      rw [bindEqOk] at h ⊢
      obtain ⟨items, hloop, h⟩ := h
      exact ⟨items, ihLoop _ _ _ _ _ hloop, h⟩
    · intro buffer offset stop t r h
      by_cases hlt : offset < stop
      · rw [readListLoop_step _ _ _ _ hlt] at h
        rw [readListLoop_step _ _ _ _ hlt]
        rw [bindEqOk] at h ⊢
        obtain ⟨⟨item, size⟩, hitem, h⟩ := h
        refine ⟨⟨item, size⟩, ihF _ _ _ _ hitem, ?_⟩
        dsimp only at h ⊢
        rw [bindEqOk] at h ⊢
        obtain ⟨rest, hrest, h⟩ := h
        exact ⟨rest, ihLoop _ _ _ _ _ hrest, h⟩
      · rw [readListLoop_stop _ _ _ _ hlt] at h
        rw [readListLoop_stop _ _ _ _ hlt]
        exact h

theorem decodeMono {P : Type} {c : PrimCodec P} :
    ∀ f : Nat,
      (∀ (f' : Nat) (buffer : List Nat) (offset : Nat) (r : Node P × Nat),
        f ≤ f' → fromOffset c f buffer offset = .ok r →
        fromOffset c f' buffer offset = .ok r) ∧
      (∀ (f' : Nat) (buffer : List Nat) (r : List (Node P) × Nat),
        f ≤ f' → readList c f buffer = .ok r → readList c f' buffer = .ok r) ∧
      (∀ (f' : Nat) (buffer : List Nat) (offset stop : Nat)
        (r : List (Node P)),
        f ≤ f' → readListLoop c f buffer offset stop = .ok r →
        readListLoop c f' buffer offset stop = .ok r) := by
  intro f
  induction f with
  | zero =>
    refine ⟨?_, ?_, ?_⟩
    · intro f' buffer offset r _ h
      rw [fromOffset] at h
      exact absurd h (by simp)
    · intro f' buffer r _ h
      rw [readList] at h
      exact absurd h (by simp)
    · intro f' buffer offset stop r _ h
      rw [readListLoop] at h
      exact absurd h (by simp)
  | succ f ih =>
    obtain ⟨ihF, ihL, ihLoop⟩ := ih
    refine ⟨?_, ?_, ?_⟩
    · intro f' buffer offset r hle h
      match f', hle with
      | f2 + 1, hle =>
        have hle2 : f ≤ f2 := by omega
        cases hb : buffer[offset]? with
        | none =>
          rw [fromOffset_none _ _ _ _ hb] at h
          exact absurd h (by simp)
        | some tag =>
          rcases tag with _|_|_|_|_|_|_|_|_|_|_|tag
          · rw [fromOffset_tag0 _ _ _ _ hb] at h
            rw [fromOffset_tag0 _ _ _ _ hb]
            exact h
          · rw [fromOffset_tag1 _ _ _ _ hb] at h
            rw [fromOffset_tag1 _ _ _ _ hb]
            exact h
          · rw [fromOffset_tag2 _ _ _ _ hb] at h
            rw [fromOffset_tag2 _ _ _ _ hb]
            rw [bindEqOk] at h ⊢
            obtain ⟨⟨items, size⟩, hl, hrest⟩ := h
            exact ⟨⟨items, size⟩, ihL _ _ _ hle2 hl, hrest⟩
          · rw [fromOffset_tag3 _ _ _ _ hb] at h
            rw [fromOffset_tag3 _ _ _ _ hb]
            exact h
          · rw [fromOffset_tag4 _ _ _ _ hb] at h
            rw [fromOffset_tag4 _ _ _ _ hb]
            exact h
          · rw [fromOffset_tag5 _ _ _ _ hb] at h
            rw [fromOffset_tag5 _ _ _ _ hb]
            rw [bindEqOk] at h ⊢
            obtain ⟨⟨prim, primSize⟩, hp, h⟩ := h
            refine ⟨⟨prim, primSize⟩, hp, ?_⟩
            dsimp only at h ⊢
            rw [bindEqOk] at h ⊢
            obtain ⟨⟨arg, argSize⟩, harg, h⟩ := h
            exact ⟨⟨arg, argSize⟩, ihF _ _ _ _ hle2 harg, h⟩
          · rw [fromOffset_tag6 _ _ _ _ hb] at h
            rw [fromOffset_tag6 _ _ _ _ hb]
            rw [bindEqOk] at h ⊢
            obtain ⟨⟨prim, primSize⟩, hp, h⟩ := h
            refine ⟨⟨prim, primSize⟩, hp, ?_⟩
            dsimp only at h ⊢
            rw [bindEqOk] at h ⊢
            obtain ⟨⟨arg, argSize⟩, harg, h⟩ := h
            exact ⟨⟨arg, argSize⟩, ihF _ _ _ _ hle2 harg, h⟩
          · rw [fromOffset_tag7 _ _ _ _ hb] at h
            rw [fromOffset_tag7 _ _ _ _ hb]
            rw [bindEqOk] at h ⊢
            obtain ⟨⟨prim, primSize⟩, hp, h⟩ := h
            refine ⟨⟨prim, primSize⟩, hp, ?_⟩
            dsimp only at h ⊢
            rw [bindEqOk] at h ⊢
            obtain ⟨⟨arg1, arg1Size⟩, harg1, h⟩ := h
            refine ⟨⟨arg1, arg1Size⟩, ihF _ _ _ _ hle2 harg1, ?_⟩
            dsimp only at h ⊢
            rw [bindEqOk] at h ⊢
            obtain ⟨⟨arg2, arg2Size⟩, harg2, h⟩ := h
            exact ⟨⟨arg2, arg2Size⟩, ihF _ _ _ _ hle2 harg2, h⟩
          · rw [fromOffset_tag8 _ _ _ _ hb] at h
            rw [fromOffset_tag8 _ _ _ _ hb]
            rw [bindEqOk] at h ⊢
            obtain ⟨⟨prim, primSize⟩, hp, h⟩ := h
            refine ⟨⟨prim, primSize⟩, hp, ?_⟩
            dsimp only at h ⊢
            rw [bindEqOk] at h ⊢
            obtain ⟨⟨arg1, arg1Size⟩, harg1, h⟩ := h
            refine ⟨⟨arg1, arg1Size⟩, ihF _ _ _ _ hle2 harg1, ?_⟩
            dsimp only at h ⊢
            rw [bindEqOk] at h ⊢
            obtain ⟨⟨arg2, arg2Size⟩, harg2, h⟩ := h
            exact ⟨⟨arg2, arg2Size⟩, ihF _ _ _ _ hle2 harg2, h⟩
          · rw [fromOffset_tag9 _ _ _ _ hb] at h
            rw [fromOffset_tag9 _ _ _ _ hb]
            rw [bindEqOk] at h ⊢
            obtain ⟨⟨prim, primSize⟩, hp, h⟩ := h
            refine ⟨⟨prim, primSize⟩, hp, ?_⟩
            dsimp only at h ⊢
            rw [bindEqOk] at h ⊢
            obtain ⟨⟨args, argsSize⟩, hargs, h⟩ := h
            exact ⟨⟨args, argsSize⟩, ihL _ _ _ hle2 hargs, h⟩
          · rw [fromOffset_tag10 _ _ _ _ hb] at h
            rw [fromOffset_tag10 _ _ _ _ hb]
            exact h
          · rw [fromOffset_tagOther _ _ _ _ hb (by omega)] at h
            exact absurd h (by simp)
    · intro f' buffer r hle h
      match f', hle with
      | f2 + 1, hle =>
        have hle2 : f ≤ f2 := by omega
        rw [readList] at h ⊢
        rw [bindEqOk] at h ⊢
        obtain ⟨szI, hsz, h⟩ := h
        refine ⟨szI, hsz, ?_⟩
        dsimp only at h ⊢
        rw [bindEqOk] at h ⊢
        obtain ⟨items, hloop, h⟩ := h
        exact ⟨items, ihLoop _ _ _ _ _ hle2 hloop, h⟩
    · intro f' buffer offset stop r hle h
      match f', hle with
      | f2 + 1, hle =>
        have hle2 : f ≤ f2 := by omega
        by_cases hlt : offset < stop
        · rw [readListLoop_step _ _ _ _ hlt] at h
          rw [readListLoop_step _ _ _ _ hlt]
          rw [bindEqOk] at h ⊢
          obtain ⟨⟨item, size⟩, hitem, h⟩ := h
          refine ⟨⟨item, size⟩, ihF _ _ _ _ hle2 hitem, ?_⟩
          dsimp only at h ⊢
          rw [bindEqOk] at h ⊢
          obtain ⟨rest, hrest, h⟩ := h
          exact ⟨rest, ihLoop _ _ _ _ _ hle2 hrest, h⟩
        · rw [readListLoop_stop _ _ _ _ hlt] at h
          rw [readListLoop_stop _ _ _ _ hlt]
          exact h

/-! Length-prefix framing correctness. -/

theorem u32OfI32_ofNat {n : Nat} (h : n < 2 ^ 32) : u32OfI32 (n : Int) = n := by
  rw [u32OfI32]
  have h1 : (n : Int) % 2 ^ 32 = (n : Int) := by
    apply Int.emod_eq_of_lt (by omega)
    push_cast
    omega
  rw [h1]
  simp

theorem usizeOfI32_ofNat {n : Nat} (h : n < 2 ^ 63) : usizeOfI32 (n : Int) = n := by
  rw [usizeOfI32]
  have h1 : (n : Int) % 2 ^ 64 = (n : Int) := by
    apply Int.emod_eq_of_lt (by omega)
    push_cast
    omega
  rw [h1]
  simp

theorem toI32_small {n : Nat} (h : n < 2 ^ 31) : toI32 n = (n : Int) := by
  rw [toI32, if_pos (by omega)]
  congr 1
  omega

theorem readIntBe_writeIntBe {n : Nat} (h : n < 2 ^ 31) (rest : List Nat) :
    readIntBe (writeIntBe (n : Int) ++ rest) = .ok ((n : Int)) := by
  rw [writeIntBe, u32OfI32_ofNat (by omega)]
  show readIntBe (_ :: _ :: _ :: _ :: rest) = _
  rw [readIntBe]
  have e24 : n >>> 24 &&& 0xff = n / 2 ^ 24 % 256 := by
    rw [natAnd255, Nat.shiftRight_eq_div_pow]
  have e16 : n >>> 16 &&& 0xff = n / 2 ^ 16 % 256 := by
    rw [natAnd255, Nat.shiftRight_eq_div_pow]
  have e8 : n >>> 8 &&& 0xff = n / 2 ^ 8 % 256 := by
    rw [natAnd255, Nat.shiftRight_eq_div_pow]
  have e0 : n &&& 0xff = n % 256 := by rw [natAnd255]
  rw [e24, e16, e8, e0]
  have hb16 : n / 2 ^ 16 % 256 * 2 ^ 16 < 2 ^ 24 := by omega
  have hb8 : n / 2 ^ 8 % 256 * 2 ^ 8 < 2 ^ 16 := by omega
  have s1 : (n / 2 ^ 24 % 256) <<< 24 ||| (n / 2 ^ 16 % 256) <<< 16 =
      n / 2 ^ 16 % 256 * 2 ^ 16 + 2 ^ 24 * (n / 2 ^ 24 % 256) := by
    rw [Nat.shiftLeft_eq, Nat.shiftLeft_eq, Nat.lor_comm,
      mul_comm (n / 2 ^ 24 % 256) (2 ^ 24)]
    exact orMul _ _ hb16
  rw [s1]
  have s2 : n / 2 ^ 16 % 256 * 2 ^ 16 + 2 ^ 24 * (n / 2 ^ 24 % 256) =
      2 ^ 16 * (n / 2 ^ 16 % 256 + 2 ^ 8 * (n / 2 ^ 24 % 256)) := by ring
  rw [s2]
  have s3 : 2 ^ 16 * (n / 2 ^ 16 % 256 + 2 ^ 8 * (n / 2 ^ 24 % 256)) |||
      (n / 2 ^ 8 % 256) <<< 8 =
      2 ^ 16 * (n / 2 ^ 16 % 256 + 2 ^ 8 * (n / 2 ^ 24 % 256)) +
        n / 2 ^ 8 % 256 * 2 ^ 8 := by
    rw [Nat.shiftLeft_eq, Nat.lor_comm, orMul _ _ hb8]
    omega
  rw [s3]
  have s4 : 2 ^ 16 * (n / 2 ^ 16 % 256 + 2 ^ 8 * (n / 2 ^ 24 % 256)) +
      n / 2 ^ 8 % 256 * 2 ^ 8 =
      2 ^ 8 * (2 ^ 8 * (n / 2 ^ 16 % 256 + 2 ^ 8 * (n / 2 ^ 24 % 256)) +
        n / 2 ^ 8 % 256) := by ring
  rw [s4]
  have s5 : 2 ^ 8 * (2 ^ 8 * (n / 2 ^ 16 % 256 + 2 ^ 8 * (n / 2 ^ 24 % 256)) +
      n / 2 ^ 8 % 256) ||| n % 256 =
      2 ^ 8 * (2 ^ 8 * (n / 2 ^ 16 % 256 + 2 ^ 8 * (n / 2 ^ 24 % 256)) +
        n / 2 ^ 8 % 256) + n % 256 := by
    rw [Nat.lor_comm, orMul _ _ (by omega)]
    omega
  rw [s5]
  have hrec : 2 ^ 8 * (2 ^ 8 * (n / 2 ^ 16 % 256 + 2 ^ 8 * (n / 2 ^ 24 % 256)) +
      n / 2 ^ 8 % 256) + n % 256 = n := by
    norm_num
    omega
  rw [hrec, toI32_small h]

theorem writeIntBe_length (v : Int) : (writeIntBe v).length = 4 := by
  rw [writeIntBe]
  rfl

theorem readVec_prefixed {n : Nat} (h : n < 2 ^ 31) (rest : List Nat) :
    readVec (writeIntBe (n : Int) ++ rest) =
      if n ≤ rest.length then .ok (rest.take n, n + 4) else .error .oob := by
  rw [readVec, readIntBe_writeIntBe h rest, exceptOkBind]
  rw [usizeOfI32_ofNat (by omega)]
  have hlen : (writeIntBe (n : Int) ++ rest).length = 4 + rest.length := by
    rw [List.length_append, writeIntBe_length]
  rw [hlen]
  have hdrop : List.drop 4 (writeIntBe (n : Int) ++ rest) = rest :=
    List.drop_left' (writeIntBe_length (n : Int))
  rw [hdrop]
  by_cases hle : n ≤ rest.length
  · rw [if_pos (show n + 4 ≤ 4 + rest.length by omega), if_pos hle]
  · rw [if_neg (show ¬ n + 4 ≤ 4 + rest.length by omega), if_neg hle]

theorem dummyCodec_dec_ext :
    ∀ (buf t : List Nat) (r : DummyPrimitive × Nat),
      dummyCodec.dec buf = .ok r → dummyCodec.dec (buf ++ t) = .ok r := by
  intro buf t r h
  match buf with
  | [] => simp [dummyCodec] at h
  | b :: rest =>
    rw [List.cons_append]
    simp only [dummyCodec] at h ⊢
    by_cases hb : b = 0
    · subst hb
      simpa using h
    · simp [hb] at h

/-- The discriminant table of the specification (§4.1), as a function of
the argument-count bucket and annotation emptiness. -/
def specDiscriminant (argCount : Nat) (annotEmpty : Bool) : Nat :=
  if argCount = 0 then (if annotEmpty then 3 else 4)
  else if argCount = 1 then (if annotEmpty then 5 else 6)
  else if argCount = 2 then (if annotEmpty then 7 else 8)
  else 9


mutual
/-- All text and byte payloads of the tree hold byte values (below 256),
as the `u8` and `String` types of the source guarantee. -/
def nodeBytesLT {P : Type} : Node P → Bool
  | .int _ => true
  | .string s => s.all (· < 256)
  | .bytes b => b.all (· < 256)
  | .prim _ args annot =>
      nodesBytesLT args && annot.all (fun a => a.all (· < 256))
  | .seq xs => nodesBytesLT xs
termination_by n => (sizeOf n, 0)

/-- `nodeBytesLT` over a child list. -/
def nodesBytesLT {P : Type} : List (Node P) → Bool
  | [] => true
  | x :: rest => nodeBytesLT x && nodesBytesLT rest
termination_by l => (sizeOf l, 1)
end

mutual
/-- All `Int` leaves lie in the supported `i32` range (the magnitude of
the most negative value being excluded, as `abs` overflows on it). -/
def nodeIntsInRange {P : Type} : Node P → Bool
  | .int v => decide (-(2 ^ 31) < v) && decide (v < 2 ^ 31)
  | .string _ => true
  | .bytes _ => true
  | .prim _ args _ => nodesIntsInRange args
  | .seq xs => nodesIntsInRange xs
termination_by n => (sizeOf n, 0)

/-- `nodeIntsInRange` over a child list. -/
def nodesIntsInRange {P : Type} : List (Node P) → Bool
  | [] => true
  | x :: rest => nodeIntsInRange x && nodesIntsInRange rest
termination_by l => (sizeOf l, 1)
end

theorem orLt256 {x y : Nat} (hx : x < 256) (hy : y < 256) : x ||| y < 256 := by
  have h := Nat.or_lt_two_pow (x := x) (y := y) (n := 8) (by omega) (by omega)
  omega

theorem writeZarithRest_bytes :
    ∀ m, ∀ b ∈ writeZarithRest m, b < 256 := by
  intro m
  induction m using Nat.strong_induction_on with
  | _ m ih =>
    intro b hb
    by_cases hm : m = 0
    · subst hm
      rw [writeZarithRest_zero] at hb
      simp at hb
    · rw [writeZarithRest_pos hm] at hb
      have hrec7 : m >>> 7 < m := by
        rw [Nat.shiftRight_eq_div_pow]
        exact Nat.div_lt_self (Nat.pos_of_ne_zero hm) (by norm_num)
      rcases List.mem_cons.mp hb with hhd | htl
      · subst hhd
        by_cases h7 : 0x7f < m
        · rw [if_pos h7, natAnd127]
          exact orLt256 (by omega) (by omega)
        · rw [if_neg h7, natAnd127]
          omega
      · exact ih (m >>> 7) hrec7 b htl

theorem writeZarith_bytes :
    ∀ v, ∀ b ∈ writeZarith v, b < 256 := by
  intro v b hb
  rw [writeZarith] at hb
  rcases List.mem_cons.mp hb with hhd | htl
  · subst hhd
    by_cases hs : v < 0
    · rw [if_pos hs]
      by_cases h6 : 0x3f < v.natAbs
      · rw [if_pos h6, natAnd63]
        exact orLt256 (orLt256 (by omega) (by omega)) (by omega)
      · rw [if_neg h6, natAnd63]
        exact orLt256 (by omega) (by omega)
    · rw [if_neg hs]
      by_cases h6 : 0x3f < v.natAbs
      · rw [if_pos h6, natAnd63]
        exact orLt256 (by omega) (by omega)
      · rw [if_neg h6, natAnd63]
        omega
  · exact writeZarithRest_bytes _ b htl

theorem writeIntBe_bytes :
    ∀ v, ∀ b ∈ writeIntBe v, b < 256 := by
  intro v b hb
  rw [writeIntBe] at hb
  simp only [natAnd255, List.mem_cons, List.not_mem_nil, or_false] at hb
  rcases hb with h | h | h | h <;> omega

theorem writeArray_bytes {value : List Nat} (hv : ∀ b ∈ value, b < 256) :
    ∀ b ∈ (writeArray value).1, b < 256 := by
  intro b hb
  rw [writeArray] at hb
  rcases List.mem_append.mp hb with h | h
  · exact writeIntBe_bytes _ b h
  · exact hv b h

theorem joinSpace_cons2 (a a2 : List Nat) (rest2 : List (List Nat)) :
    joinSpace (a :: a2 :: rest2) = a ++ 0x20 :: joinSpace (a2 :: rest2) := rfl

theorem joinSpace_bytes {annot : List (List Nat)}
    (ha : ∀ a ∈ annot, ∀ b ∈ a, b < 256) :
    ∀ b ∈ joinSpace annot, b < 256 := by
  induction annot with
  | nil => simp [joinSpace]
  | cons a rest ih =>
    intro b hb
    match rest with
    | [] =>
      rw [joinSpace] at hb
      exact ha a (by simp) b hb
    | a2 :: rest2 =>
      rw [joinSpace_cons2] at hb
      rcases List.mem_append.mp hb with h | h
      · exact ha a (by simp) b h
      · rcases List.mem_cons.mp h with h2 | h2
        · omega
        · exact ih (fun x hx => ha x (by simp [hx])) b h2

theorem encodeAnnot_bytes {annot : List (List Nat)}
    (ha : ∀ a ∈ annot, ∀ b ∈ a, b < 256) :
    ∀ b ∈ (encodeAnnot annot).1, b < 256 := by
  rw [encodeAnnot]
  exact writeArray_bytes (joinSpace_bytes ha)

section PrimShape

variable {P : Type} (c : PrimCodec P) (p : P)

theorem encodePrimitive_0_0 :
    encodePrimitive c p [] [] = ((3 : Nat) :: c.enc p, (c.enc p).length + 1) := by
  simp [encodePrimitive]

theorem encodePrimitive_0_ann (an : List Nat) (annot2 : List (List Nat)) :
    encodePrimitive c p [] (an :: annot2) =
      ((4 : Nat) :: c.enc p ++ (encodeAnnot (an :: annot2)).1,
       (c.enc p).length + (encodeAnnot (an :: annot2)).2 + 1) := by
  simp [encodePrimitive]

theorem encodePrimitive_1_0 (a1 : Node P) :
    encodePrimitive c p [a1] [] =
      ((5 : Nat) :: c.enc p ++ (encodeToBuffer c a1).1,
       (c.enc p).length + (encodeToBuffer c a1).2 + 1) := by
  simp [encodePrimitive]

theorem encodePrimitive_1_ann (a1 : Node P) (an : List Nat)
    (annot2 : List (List Nat)) :
    encodePrimitive c p [a1] (an :: annot2) =
      ((6 : Nat) :: c.enc p ++ (encodeToBuffer c a1).1 ++
         (encodeAnnot (an :: annot2)).1,
       (c.enc p).length + (encodeToBuffer c a1).2 +
         (encodeAnnot (an :: annot2)).2 + 1) := by
  simp [encodePrimitive]

theorem encodePrimitive_2_0 (a1 a2 : Node P) :
    encodePrimitive c p [a1, a2] [] =
      ((7 : Nat) :: c.enc p ++ (encodeToBuffer c a1).1 ++
         (encodeToBuffer c a2).1,
       (c.enc p).length + (encodeToBuffer c a1).2 +
         (encodeToBuffer c a2).2 + 1) := by
  simp [encodePrimitive]

theorem encodePrimitive_2_ann (a1 a2 : Node P) (an : List Nat)
    (annot2 : List (List Nat)) :
    encodePrimitive c p [a1, a2] (an :: annot2) =
      ((8 : Nat) :: c.enc p ++ (encodeToBuffer c a1).1 ++
         (encodeToBuffer c a2).1 ++ (encodeAnnot (an :: annot2)).1,
       (c.enc p).length + (encodeToBuffer c a1).2 +
         (encodeToBuffer c a2).2 + (encodeAnnot (an :: annot2)).2 + 1) := by
  simp [encodePrimitive]

theorem encodePrimitive_ge3 (args : List (Node P)) (annot : List (List Nat))
    (h3 : 3 ≤ args.length) :
    encodePrimitive c p args annot =
      ((9 : Nat) :: c.enc p ++ (writeList c args).1 ++ (encodeAnnot annot).1,
       (c.enc p).length + (writeList c args).2 + (encodeAnnot annot).2 + 1) := by
  rcases args with _ | ⟨a1, _ | ⟨a2, _ | ⟨a3, args4⟩⟩⟩ <;> simp at h3 <;>
    rcases annot with _ | ⟨an, annot2⟩ <;> simp [encodePrimitive]

end PrimShape

theorem nodesBytesLT_mem {P : Type} {args : List (Node P)}
    (h : nodesBytesLT args = true) {a : Node P} (ha : a ∈ args) :
    nodeBytesLT a = true := by
  induction args with
  | nil => simp at ha
  | cons x rest ih =>
    rw [nodesBytesLT, Bool.and_eq_true] at h
    rcases List.mem_cons.mp ha with h1 | h1
    · subst h1
      exact h.1
    · exact ih h.2 h1

theorem encodeBytesLt {P : Type} {c : PrimCodec P}
    (hc : ∀ p, ∀ b ∈ c.enc p, b < 256) :
    ∀ k : Nat,
      (∀ n : Node P, sizeOf n ≤ k → nodeBytesLT n = true →
        ∀ b ∈ (encodeToBuffer c n).1, b < 256) ∧
      (∀ xs : List (Node P), sizeOf xs ≤ k → nodesBytesLT xs = true →
        ∀ b ∈ (encodeNodes c xs).1, b < 256) := by
  intro k
  induction k with
  | zero =>
    constructor
    · intro n hsz
      exact absurd hsz (by cases n <;> simp <;> omega)
    · intro xs hsz
      exact absurd hsz (by cases xs <;> simp <;> omega)
  | succ k ih =>
    obtain ⟨ihN, ihL⟩ := ih
    constructor
    · intro n hsz hwf b hb
      cases n with
      | int v =>
        rw [encodeToBuffer] at hb
        rcases List.mem_cons.mp hb with h | h
        · omega
        · exact writeZarith_bytes v b h
      | string s =>
        rw [encodeToBuffer] at hb
        rw [nodeBytesLT] at hwf
        have hs : ∀ x ∈ s, x < 256 := by
          intro x hx
          have := List.all_eq_true.mp hwf x hx
          simpa using this
        rcases List.mem_cons.mp hb with h | h
        · omega
        · exact writeArray_bytes hs b h
      | bytes v =>
        rw [encodeToBuffer] at hb
        rw [nodeBytesLT] at hwf
        have hs : ∀ x ∈ v, x < 256 := by
          intro x hx
          have := List.all_eq_true.mp hwf x hx
          simpa using this
        rcases List.mem_cons.mp hb with h | h
        · omega
        · exact writeArray_bytes hs b h
      | seq xs =>
        rw [encodeToBuffer] at hb
        rw [nodeBytesLT] at hwf
        have hxs : ∀ b ∈ (encodeNodes c xs).1, b < 256 :=
          ihL xs (by simp at hsz ⊢; omega) hwf
        rcases List.mem_cons.mp hb with h | h
        · omega
        · rw [writeList] at h
          rcases List.mem_append.mp h with h2 | h2
          · exact writeIntBe_bytes _ b h2
          · exact hxs b h2
      | prim p args annot =>
        rw [encodeToBuffer] at hb
        rw [nodeBytesLT, Bool.and_eq_true] at hwf
        obtain ⟨hargsWF, hannotWF⟩ := hwf
        have hannot : ∀ x ∈ (encodeAnnot annot).1, x < 256 := by
          apply encodeAnnot_bytes
          intro a ha x hx
          have h1 := List.all_eq_true.mp hannotWF a ha
          have h2 := List.all_eq_true.mp h1 x hx
          simpa using h2
        have hargsize : sizeOf args ≤ k := by
          simp at hsz
          have hp : 0 ≤ sizeOf p := by positivity
          omega
        have hlist : ∀ x ∈ (writeList c args).1, x < 256 := by
          intro x hx
          rw [writeList] at hx
          rcases List.mem_append.mp hx with h2 | h2
          · exact writeIntBe_bytes _ x h2
          · exact ihL args hargsize hargsWF x h2
        have hargNode : ∀ a ∈ args, ∀ x ∈ (encodeToBuffer c a).1, x < 256 := by
          intro a ha x hx
          have hlt : sizeOf a < sizeOf args := List.sizeOf_lt_of_mem ha
          exact ihN a (by omega) (nodesBytesLT_mem hargsWF ha) x hx
        rcases args with _ | ⟨a1, _ | ⟨a2, _ | ⟨a3, args4⟩⟩⟩ <;>
          rcases annot with _ | ⟨an, annot2⟩
        · rw [encodePrimitive_0_0] at hb
          rcases List.mem_cons.mp hb with h | h
          · omega
          · exact hc p b h
        · rw [encodePrimitive_0_ann] at hb
          rcases List.mem_append.mp hb with h | h
          · rcases List.mem_cons.mp h with h2 | h2
            · omega
            · exact hc p b h2
          · exact hannot b h
        · rw [encodePrimitive_1_0] at hb
          rcases List.mem_append.mp hb with h | h
          · rcases List.mem_cons.mp h with h2 | h2
            · omega
            · exact hc p b h2
          · exact hargNode a1 (by simp) b h
        · rw [encodePrimitive_1_ann] at hb
          rcases List.mem_append.mp hb with h | h
          · rcases List.mem_append.mp h with h2 | h2
            · rcases List.mem_cons.mp h2 with h3 | h3
              · omega
              · exact hc p b h3
            · exact hargNode a1 (by simp) b h2
          · exact hannot b h
        · rw [encodePrimitive_2_0] at hb
          rcases List.mem_append.mp hb with h | h
          · rcases List.mem_append.mp h with h2 | h2
            · rcases List.mem_cons.mp h2 with h3 | h3
              · omega
              · exact hc p b h3
            · exact hargNode a1 (by simp) b h2
          · exact hargNode a2 (by simp) b h
        · rw [encodePrimitive_2_ann] at hb
          rcases List.mem_append.mp hb with h | h
          · rcases List.mem_append.mp h with h2 | h2
            · rcases List.mem_append.mp h2 with h3 | h3
              · rcases List.mem_cons.mp h3 with h4 | h4
                · omega
                · exact hc p b h4
              · exact hargNode a1 (by simp) b h3
            · exact hargNode a2 (by simp) b h2
          · exact hannot b h
        · rw [encodePrimitive_ge3 _ _ _ _ (by simp)] at hb
          rcases List.mem_append.mp hb with h | h
          · rcases List.mem_append.mp h with h2 | h2
            · rcases List.mem_cons.mp h2 with h3 | h3
              · omega
              · exact hc p b h3
            · exact hlist b h2
          · exact hannot b h
        · rw [encodePrimitive_ge3 _ _ _ _ (by simp)] at hb
          rcases List.mem_append.mp hb with h | h
          · rcases List.mem_append.mp h with h2 | h2
            · rcases List.mem_cons.mp h2 with h3 | h3
              · omega
              · exact hc p b h3
            · exact hlist b h2
          · exact hannot b h
    · intro xs hsz hwf b hb
      cases xs with
      | nil =>
        rw [encodeNodes] at hb
        simp at hb
      | cons x rest =>
        rw [encodeNodes] at hb
        rw [nodesBytesLT, Bool.and_eq_true] at hwf
        rcases List.mem_append.mp hb with h | h
        · exact ihN x (by simp at hsz ⊢; omega) hwf.1 b h
        · exact ihL rest (by simp at hsz ⊢; omega) hwf.2 b h

theorem encodeToBuffer_ne_nil {P : Type} (c : PrimCodec P) (n : Node P) :
    (encodeToBuffer c n).1 ≠ [] := by
  cases n with
  | int v => simp [encodeToBuffer]
  | string s => simp [encodeToBuffer]
  | bytes b => simp [encodeToBuffer]
  | seq xs => simp [encodeToBuffer]
  | prim p args annot =>
    rw [encodeToBuffer]
    rcases args with _ | ⟨a1, _ | ⟨a2, _ | ⟨a3, args4⟩⟩⟩ <;>
      rcases annot with _ | ⟨an, annot2⟩
    · rw [encodePrimitive_0_0]
      simp
    · rw [encodePrimitive_0_ann]
      simp
    · rw [encodePrimitive_1_0]
      simp
    · rw [encodePrimitive_1_ann]
      simp
    · rw [encodePrimitive_2_0]
      simp
    · rw [encodePrimitive_2_ann]
      simp
    · rw [encodePrimitive_ge3 _ _ _ _ (by simp)]
      simp
    · rw [encodePrimitive_ge3 _ _ _ _ (by simp)]
      simp

/-! The claims. -/

/-- C1: the claim states that decoding the encoding of `Seq(L)` yields
`Seq(L)` for every child list, in particular with `String` and `Bytes`
children. The code violates it: the `String` and `Bytes` branches of
`encode_to_buffer` report one byte less than they push (the tag byte is
not counted), so `write_list` backpatches a length prefix that
understates the payload, and `read_list` stops before the last child.
Encoding `Seq [Bytes [], Bytes [], Int 0]` yields a prefix of 10 for a
12-byte payload, and decoding returns a two-element sequence, dropping
the trailing `Int 0`. -/
theorem seqEncodeDecodeDropsChild :
    Node.encode dummyCodec (.seq [.bytes [], .bytes [], .int 0]) =
      [2, 0, 0, 0, 10, 10, 0, 0, 0, 0, 10, 0, 0, 0, 0, 0, 0] ∧
    nodeFrom dummyCodec
        (Node.encode dummyCodec (.seq [.bytes [], .bytes [], .int 0])) =
      .ok (.seq [.bytes [], .bytes []]) := by
  have henc : Node.encode dummyCodec (.seq [.bytes [], .bytes [], .int 0]) =
      [2, 0, 0, 0, 10, 10, 0, 0, 0, 0, 10, 0, 0, 0, 0, 0, 0] := by
    simp [Node.encode, encodeToBuffer, writeList, encodeNodes, writeZarith,
      writeZarithRest, writeIntBe, u32OfI32, writeArray]
  refine ⟨henc, ?_⟩
  rw [henc]
  rfl

/-- C2: the claim states that every decode branch reports the sum of its
sub-part sizes plus one byte for the discriminant, in particular that the
tag-9 branch reports `prim size + args-list size + annotation size + 1`.
The tag-9 branch of `from_offset` omits the `+ 1`: on the buffer
`09 00 00 00 00 00 00 00 00 00` (tag 9, prim code `0`, empty args list,
empty annotation blob) the sub-part sizes are 1, 4 and 4, the branch
consumes all ten bytes, yet it reports 9 rather than 1 + 4 + 4 + 1 = 10. -/
theorem tag9ReportsSizeWithoutDiscriminant :
    nodeFromOffset dummyCodec [9, 0, 0, 0, 0, 0, 0, 0, 0, 0] 0 =
      .ok (.prim .mk [] [[]], 9) ∧ (9 : Nat) ≠ 1 + 4 + 4 + 1 := by
  exact ⟨rfl, by decide⟩

/-- C3: decoding the encoding of `Int v` yields `Int v` again for every
integer in the supported range (in particular at the boundary values
0, 0x3f, 0x40, 0x1fff, 0x2000 and their negations, covered by the
universal quantifier and exercised in the witness). -/
theorem intEncodeDecodeRoundTrip {P : Type} (c : PrimCodec P) (v : Int)
    (h1 : -(2 ^ 31) < v) (h2 : v < 2 ^ 31) :
    nodeFrom c (Node.encode c (.int v)) = .ok (.int v) := by
  have henc : Node.encode c (.int v) = 0 :: writeZarith v := by
    simp [Node.encode, encodeToBuffer]
  rw [henc, nodeFrom, nodeFromOffset]
  have hlen : (0 :: writeZarith v).length = (writeZarith v).length + 1 := by
    simp
  rw [hlen, fromOffset_tag0 _ _ _ _ (by rfl)]
  have hdrop : (0 :: writeZarith v).drop (0 + 1) = writeZarith v ++ [] := by
    simp
  rw [hdrop, readZarith_writeZarith]
  rfl

theorem intEncodeDecodeRoundTrip_witness :
    nodeFrom dummyCodec (Node.encode dummyCodec (.int 0)) = .ok (.int 0) ∧
    nodeFrom dummyCodec (Node.encode dummyCodec (.int 0x3f)) = .ok (.int 0x3f) ∧
    nodeFrom dummyCodec (Node.encode dummyCodec (.int 0x40)) = .ok (.int 0x40) ∧
    nodeFrom dummyCodec (Node.encode dummyCodec (.int 0x1fff)) =
      .ok (.int 0x1fff) ∧
    nodeFrom dummyCodec (Node.encode dummyCodec (.int 0x2000)) =
      .ok (.int 0x2000) ∧
    nodeFrom dummyCodec (Node.encode dummyCodec (.int (-0x3f))) =
      .ok (.int (-0x3f)) ∧
    nodeFrom dummyCodec (Node.encode dummyCodec (.int (-0x40))) =
      .ok (.int (-0x40)) ∧
    nodeFrom dummyCodec (Node.encode dummyCodec (.int (-0x1fff))) =
      .ok (.int (-0x1fff)) ∧
    nodeFrom dummyCodec (Node.encode dummyCodec (.int (-0x2000))) =
      .ok (.int (-0x2000)) :=
  ⟨intEncodeDecodeRoundTrip dummyCodec 0 (by decide) (by decide),
   intEncodeDecodeRoundTrip dummyCodec 0x3f (by decide) (by decide),
   intEncodeDecodeRoundTrip dummyCodec 0x40 (by decide) (by decide),
   intEncodeDecodeRoundTrip dummyCodec 0x1fff (by decide) (by decide),
   intEncodeDecodeRoundTrip dummyCodec 0x2000 (by decide) (by decide),
   intEncodeDecodeRoundTrip dummyCodec (-0x3f) (by decide) (by decide),
   intEncodeDecodeRoundTrip dummyCodec (-0x40) (by decide) (by decide),
   intEncodeDecodeRoundTrip dummyCodec (-0x1fff) (by decide) (by decide),
   intEncodeDecodeRoundTrip dummyCodec (-0x2000) (by decide) (by decide)⟩

/-- C4: for every `Prim` node the encoder emits exactly the discriminant
byte of the table, chosen from the argument-count bucket and the
annotation emptiness, and for three or more arguments it always emits
tag 9 with an annotation field present even when the annotation list is
empty (the field being `encode_annotation`'s length-prefixed blob). -/
theorem primDiscriminantTable {P : Type} (c : PrimCodec P) (p : P)
    (args : List (Node P)) (annot : List (List Nat)) :
    (encodeToBuffer c (.prim p args annot)).1.head? =
      some (specDiscriminant args.length annot.isEmpty) ∧
    (3 ≤ args.length →
      encodeToBuffer c (.prim p args annot) =
        ((9 : Nat) :: c.enc p ++ (writeList c args).1 ++ (encodeAnnot annot).1,
         (c.enc p).length + (writeList c args).2 + (encodeAnnot annot).2 + 1)) := by
  constructor
  · rw [encodeToBuffer]
    rcases args with _ | ⟨a1, _ | ⟨a2, _ | ⟨a3, args4⟩⟩⟩ <;>
      rcases annot with _ | ⟨an, annot2⟩ <;>
      simp [encodePrimitive, specDiscriminant]
  · intro h3
    rw [encodeToBuffer]
    exact encodePrimitive_ge3 c p args annot h3

theorem primDiscriminantTable_witness :
    ((encodeToBuffer dummyCodec
        (.prim .mk [.int 1, .int 2, .int 3] [])).1.head? =
      some (specDiscriminant 3 true) ∧
    (3 ≤ ([Node.int 1, Node.int 2, Node.int 3] :
        List (Node DummyPrimitive)).length →
      encodeToBuffer dummyCodec (.prim .mk [.int 1, .int 2, .int 3] []) =
        ((9 : Nat) :: dummyCodec.enc .mk ++
           (writeList dummyCodec [.int 1, .int 2, .int 3]).1 ++
           (encodeAnnot []).1,
         (dummyCodec.enc .mk).length +
           (writeList dummyCodec [.int 1, .int 2, .int 3]).2 +
           (encodeAnnot []).2 + 1))) :=
  primDiscriminantTable dummyCodec .mk [.int 1, .int 2, .int 3] []

/-- C5: the claim states that decoding a truncated buffer returns a typed
`TruncatedInput` error and never crashes. The code has no such error:
the slice `&buffer[4 .. size + 4]` in `read_vec` is not bounds-checked
and the process aborts with an out-of-bounds panic (modelled by the
`oob` outcome, marked as a panic). The buffer `01 00 00 00 05`, a
`String` declaring five payload bytes with none present, aborts. -/
theorem truncatedInputOobCounterexample :
    nodeFrom dummyCodec [1, 0, 0, 0, 5] = .error .oob ∧
    DecErr.oob.isPanic = true := ⟨rfl, rfl⟩

/-- C5 (amended): no typed truncation error exists; instead decode aborts.
Whenever a declared blob length `n` exceeds the remaining bytes, the
unchecked slice in `read_vec` aborts with an out-of-bounds panic: at the
`read_vec` site itself, end-to-end through a `String` (tag 1) node, a
`Bytes` (tag 10) node, and the annotation blob of a tag-4 `Prim` node
(for any primitive whose code bytes `pb` parse consuming themselves);
and a `Seq` whose declared payload size extends past an empty remainder
aborts through the out-of-bounds index of `from_offset`. -/
theorem truncatedInputAborts {P : Type} (c : PrimCodec P) (n : Nat)
    (rest pb : List Nat) (p : P)
    (h31 : n < 2 ^ 31) (hshort : rest.length < n)
    (hdec : c.dec (pb ++ (writeIntBe (n : Int) ++ rest)) = .ok (p, pb.length)) :
    readVec (writeIntBe (n : Int) ++ rest) = .error .oob ∧
    nodeFrom c ((1 : Nat) :: writeIntBe (n : Int) ++ rest) = .error .oob ∧
    nodeFrom c ((10 : Nat) :: writeIntBe (n : Int) ++ rest) = .error .oob ∧
    nodeFrom c ((4 : Nat) :: pb ++ (writeIntBe (n : Int) ++ rest)) =
      .error .oob ∧
    nodeFrom c ((2 : Nat) :: writeIntBe (n : Int)) = .error .oob ∧
    DecErr.oob.isPanic = true := by
  have hvec : readVec (writeIntBe (n : Int) ++ rest) = .error .oob := by
    rw [readVec_prefixed h31, if_neg (by omega)]
  refine ⟨hvec, ?_, ?_, ?_, ?_, rfl⟩
  · rw [nodeFrom, nodeFromOffset]
    have hlen : ((1 : Nat) :: writeIntBe (n : Int) ++ rest).length =
        (writeIntBe (n : Int) ++ rest).length + 1 := by
      simp
    rw [hlen, fromOffset_tag1 _ _ _ _ (by rfl)]
    have hdrop : ((1 : Nat) :: writeIntBe (n : Int) ++ rest).drop (0 + 1) =
        writeIntBe (n : Int) ++ rest := by simp
    rw [hdrop, hvec]
    rfl
  · rw [nodeFrom, nodeFromOffset]
    have hlen : ((10 : Nat) :: writeIntBe (n : Int) ++ rest).length =
        (writeIntBe (n : Int) ++ rest).length + 1 := by
      simp
    rw [hlen, fromOffset_tag10 _ _ _ _ (by rfl)]
    have hdrop : ((10 : Nat) :: writeIntBe (n : Int) ++ rest).drop (0 + 1) =
        writeIntBe (n : Int) ++ rest := by simp
    rw [hdrop, hvec]
    rfl
  · rw [nodeFrom, nodeFromOffset]
    have hlen : ((4 : Nat) :: pb ++ (writeIntBe (n : Int) ++ rest)).length =
        (pb ++ (writeIntBe (n : Int) ++ rest)).length + 1 := by
      simp
    rw [hlen, fromOffset_tag4 _ _ _ _ (by simp)]
    have hdrop1 : ((4 : Nat) :: pb ++
        (writeIntBe (n : Int) ++ rest)).drop (0 + 1) =
        pb ++ (writeIntBe (n : Int) ++ rest) := by simp
    rw [hdrop1, hdec, exceptOkBind]
    dsimp only
    have hdrop2 : ((4 : Nat) :: pb ++
        (writeIntBe (n : Int) ++ rest)).drop (0 + pb.length + 1) =
        writeIntBe (n : Int) ++ rest := by
      have h2 : (((4 : Nat) :: pb) ++ (writeIntBe (n : Int) ++ rest)).drop
          (pb.length + 1) = writeIntBe (n : Int) ++ rest :=
        List.drop_left' (by simp)
      simpa [Nat.add_comm] using h2
    rw [hdrop2, readAnnot, hvec]
    rfl
  · rw [nodeFrom, nodeFromOffset]
    have hlen : ((2 : Nat) :: writeIntBe (n : Int)).length = 5 := by
      simp [writeIntBe_length]
    rw [hlen, fromOffset_tag2 _ _ _ _ (by rfl)]
    have hdrop : ((2 : Nat) :: writeIntBe (n : Int)).drop (0 + 1) =
        writeIntBe (n : Int) := by simp
    rw [hdrop, readList]
    have hread : readIntBe (writeIntBe (n : Int)) = .ok ((n : Int)) := by
      have h := readIntBe_writeIntBe h31 ([] : List Nat)
      simpa using h
    rw [hread, exceptOkBind]
    dsimp only
    rw [usizeOfI32_ofNat (by omega)]
    rw [readListLoop_step _ _ _ _ (by omega : (4 : Nat) < n + 4)]
    have hnone : (writeIntBe (n : Int))[4]? = none := by
      apply List.getElem?_eq_none
      rw [writeIntBe_length]
    rw [fromOffset_none _ _ _ _ hnone]
    rfl

theorem truncatedInputAborts_witness :
    (readVec (writeIntBe ((5 : Nat) : Int) ++ []) = .error .oob ∧
    nodeFrom dummyCodec ((1 : Nat) :: writeIntBe ((5 : Nat) : Int) ++ []) =
      .error .oob ∧
    nodeFrom dummyCodec ((10 : Nat) :: writeIntBe ((5 : Nat) : Int) ++ []) =
      .error .oob ∧
    nodeFrom dummyCodec
        ((4 : Nat) :: [0] ++ (writeIntBe ((5 : Nat) : Int) ++ [])) =
      .error .oob ∧
    nodeFrom dummyCodec ((2 : Nat) :: writeIntBe ((5 : Nat) : Int)) =
      .error .oob ∧
    DecErr.oob.isPanic = true) :=
  truncatedInputAborts dummyCodec 5 [] [0] .mk (by decide) (by decide) (by rfl)

/-- C6: the claim states that a `String` or annotation payload that is not
valid UTF-8 makes decode fail with a typed `InvalidUtf8` error returned
to the caller. The code instead calls
`String::from_utf8(..).expect("Only UTF-8 allowed")`, which panics
(modelled by the `badUtf8` outcome, marked as a panic): the buffer
`01 00 00 00 01 FF` aborts rather than returning an `Err`. -/
theorem invalidUtf8Counterexample :
    nodeFrom dummyCodec [1, 0, 0, 0, 1, 0xFF] = .error .badUtf8 ∧
    DecErr.badUtf8.isPanic = true := ⟨rfl, rfl⟩

/-- C6 (amended): decoding a `String` payload or an annotation payload
that is not valid UTF-8 aborts through the
`String::from_utf8(..).expect(..)` panic rather than returning a typed
error: at the `read_annotation` site itself, end-to-end through a
`String` (tag 1) node, and end-to-end through the annotation blob of a
tag-4 `Prim` node (for any primitive whose code bytes `pb` parse
consuming themselves). -/
theorem invalidUtf8Aborts {P : Type} (c : PrimCodec P) (bytes pb : List Nat)
    (p : P) (hbad : validUtf8 bytes = false) (h31 : bytes.length < 2 ^ 31)
    (hdec : c.dec (pb ++ (writeArray bytes).1) = .ok (p, pb.length)) :
    readAnnot ((writeArray bytes).1) = .error .badUtf8 ∧
    nodeFrom c ((1 : Nat) :: (writeArray bytes).1) = .error .badUtf8 ∧
    nodeFrom c ((4 : Nat) :: pb ++ (writeArray bytes).1) = .error .badUtf8 ∧
    DecErr.badUtf8.isPanic = true := by
  have hwa : (writeArray bytes).1 = writeIntBe (bytes.length : Int) ++ bytes := by
    rw [writeArray]
  have hread : readVec ((writeArray bytes).1) =
      .ok (bytes, bytes.length + 4) := by
    rw [hwa, readVec_prefixed h31, if_pos (by omega), List.take_length]
  have hannot : readAnnot ((writeArray bytes).1) = .error .badUtf8 := by
    rw [readAnnot, hread, exceptOkBind]
    dsimp only
    rw [hbad]
    rfl
  refine ⟨hannot, ?_, ?_, rfl⟩
  · rw [nodeFrom, nodeFromOffset]
    have hlen : ((1 : Nat) :: (writeArray bytes).1).length =
        ((writeArray bytes).1).length + 1 := by
      simp
    rw [hlen, fromOffset_tag1 _ _ _ _ (by simp)]
    have hdrop : ((1 : Nat) :: (writeArray bytes).1).drop (0 + 1) =
        (writeArray bytes).1 := by simp
    rw [hdrop, hread, exceptOkBind]
    dsimp only
    rw [hbad]
    rfl
  · rw [nodeFrom, nodeFromOffset]
    have hlen : ((4 : Nat) :: pb ++ (writeArray bytes).1).length =
        (pb ++ (writeArray bytes).1).length + 1 := by
      simp
    rw [hlen, fromOffset_tag4 _ _ _ _ (by simp)]
    have hdrop1 : ((4 : Nat) :: pb ++ (writeArray bytes).1).drop (0 + 1) =
        pb ++ (writeArray bytes).1 := by simp
    rw [hdrop1, hdec, exceptOkBind]
    dsimp only
    have hdrop2 : ((4 : Nat) :: pb ++
        (writeArray bytes).1).drop (0 + pb.length + 1) =
        (writeArray bytes).1 := by
      have h2 : (((4 : Nat) :: pb) ++ (writeArray bytes).1).drop
          (pb.length + 1) = (writeArray bytes).1 :=
        List.drop_left' (by simp)
      simpa [Nat.add_comm] using h2
    rw [hdrop2, hannot]
    rfl

theorem invalidUtf8Aborts_witness :
    (readAnnot ((writeArray [0xFF]).1) = .error .badUtf8 ∧
    nodeFrom dummyCodec ((1 : Nat) :: (writeArray [0xFF]).1) =
      .error .badUtf8 ∧
    nodeFrom dummyCodec ((4 : Nat) :: [0] ++ (writeArray [0xFF]).1) =
      .error .badUtf8 ∧
    DecErr.badUtf8.isPanic = true) :=
  invalidUtf8Aborts dummyCodec [0xFF] [0] .mk (by rfl) (by decide) (by rfl)

/-- C7: for every tree whose `Int` leaves are in the supported range (and
whose payloads hold byte values, as the source's `u8`/`String` types
guarantee), `encode` terminates and returns a byte sequence: every
emitted value is a byte and the output is never empty; moreover the
zarith loop makes progress because the remaining magnitude strictly
decreases under the right shift by 7. -/
theorem encodeTotal {P : Type} (c : PrimCodec P)
    (hc : ∀ p : P, ∀ b ∈ c.enc p, b < 256) (n : Node P)
    (hBytes : nodeBytesLT n = true) (hInts : nodeIntsInRange n = true) :
    (∀ b ∈ Node.encode c n, b < 256) ∧ Node.encode c n ≠ [] ∧
    (∀ m : Nat, m ≠ 0 → m >>> 7 < m ∧
      writeZarithRest m =
        (if 0x7f < m then m &&& 0x7f ||| 0x80 else m &&& 0x7f) ::
          writeZarithRest (m >>> 7)) := by
  refine ⟨?_, ?_, ?_⟩
  · intro b hb
    exact (encodeBytesLt hc (sizeOf n)).1 n (le_refl _) hBytes b hb
  · rw [Node.encode]
    exact encodeToBuffer_ne_nil c n
  · intro m hm
    refine ⟨?_, writeZarithRest_pos hm⟩
    rw [Nat.shiftRight_eq_div_pow]
    exact Nat.div_lt_self (Nat.pos_of_ne_zero hm) (by norm_num)

theorem encodeTotal_witness :
    (∀ b ∈ Node.encode dummyCodec (.seq [.int 5, .string [0x61]]), b < 256) ∧
    Node.encode dummyCodec (.seq [.int 5, .string [0x61]]) ≠ [] ∧
    (∀ m : Nat, m ≠ 0 → m >>> 7 < m ∧
      writeZarithRest m =
        (if 0x7f < m then m &&& 0x7f ||| 0x80 else m &&& 0x7f) ::
          writeZarithRest (m >>> 7)) :=
  encodeTotal dummyCodec (by intro p b hb; simp [dummyCodec] at hb; omega)
    (.seq [.int 5, .string [0x61]])
    (by rw [nodeBytesLT, nodesBytesLT, nodeBytesLT, nodesBytesLT, nodeBytesLT,
          nodesBytesLT] <;> simp)
    (by rw [nodeIntsInRange, nodesIntsInRange, nodeIntsInRange,
          nodesIntsInRange, nodeIntsInRange, nodesIntsInRange] <;> simp)

/-- C8: the annotation codec joins with a single space and splits on the
space character, so the empty annotation list does not round-trip:
decoding the blob `encode_annotation` emits for `[]` yields the
one-element list containing the empty string, and decoding the tag-9
encoding of a `Prim` with three arguments and no annotations yields the
same node with annotation list `[""]`, not `[]`. -/
theorem emptyAnnotListAsymmetry :
    readAnnot ((encodeAnnot []).1) = .ok ([[]], 4) ∧
    nodeFrom dummyCodec
        (Node.encode dummyCodec (.prim .mk [.int 42, .int 43, .int 44] [])) =
      .ok (.prim .mk [.int 42, .int 43, .int 44] [[]]) ∧
    ([[]] : List (List Nat)) ≠ [] := by
  refine ⟨rfl, ?_, by decide⟩
  have henc : Node.encode dummyCodec (.prim .mk [.int 42, .int 43, .int 44] []) =
      [9, 0, 0, 0, 0, 6, 0, 42, 0, 43, 0, 44, 0, 0, 0, 0] := by
    simp [Node.encode, encodeToBuffer, encodePrimitive, writeList, encodeNodes,
      writeZarith, writeZarithRest, writeIntBe, u32OfI32, encodeAnnot,
      joinSpace, writeArray, dummyCodec]
  rw [henc]
  rfl

/-- C9: the encoder produces exactly the specified byte sequences on the
six concrete vectors (`Int 0x1337`, `Int (-0x1337)`, the empty `String`,
`Bytes "ab"`, `Seq [Int 1, Int 2]`, and the zero-argument zero-annotation
`Prim` with primitive code byte 0). -/
theorem encodeConcreteVectors :
    Node.encode dummyCodec (.int 0x1337) = [0x00, 0xB7, 0x4C] ∧
    Node.encode dummyCodec (.int (-0x1337)) = [0x00, 0xF7, 0x4C] ∧
    Node.encode dummyCodec (.string []) = [0x01, 0, 0, 0, 0] ∧
    Node.encode dummyCodec (.bytes [0x61, 0x62]) =
      [0x0A, 0, 0, 0, 2, 0x61, 0x62] ∧
    Node.encode dummyCodec (.seq [.int 1, .int 2]) =
      [0x02, 0, 0, 0, 4, 0, 1, 0, 2] ∧
    Node.encode dummyCodec (.prim .mk [] []) = [0x03, 0x00] := by
  refine ⟨?_, ?_, ?_, ?_, ?_, ?_⟩
  · simp [Node.encode, encodeToBuffer, writeZarith, writeZarithRest]
  · simp [Node.encode, encodeToBuffer, writeZarith, writeZarithRest]
  · simp [Node.encode, encodeToBuffer, writeArray, writeIntBe, u32OfI32]
  · simp [Node.encode, encodeToBuffer, writeArray, writeIntBe, u32OfI32]
  · simp [Node.encode, encodeToBuffer, writeList, encodeNodes, writeZarith,
      writeZarithRest, writeIntBe, u32OfI32]
  · simp [Node.encode, encodeToBuffer, encodePrimitive, dummyCodec]

/-- C10: whenever a buffer begins with a complete decodable node (the
offset-0 parse succeeds, consuming `s` bytes), the entry point `Node::from`
returns exactly that node on the buffer extended by any trailing bytes:
the trailing bytes are ignored and their count, like the consumed size
`s`, is discarded by `from` and never reported to the caller. -/
theorem fromIgnoresTrailingBytes {P : Type} (c : PrimCodec P)
    (hc : ∀ (buf t : List Nat) (r : P × Nat),
      c.dec buf = .ok r → c.dec (buf ++ t) = .ok r)
    (buffer t : List Nat) (n : Node P) (s : Nat)
    (h : nodeFromOffset c buffer 0 = .ok (n, s)) :
    nodeFrom c (buffer ++ t) = .ok n := by
  rw [nodeFromOffset] at h
  have h1 := (decodeExt hc (buffer.length + 1)).1 buffer 0 t _ h
  have h2 := (decodeMono (buffer.length + 1)).1 ((buffer ++ t).length + 1)
    (buffer ++ t) 0 _ (by simp) h1
  rw [nodeFrom, nodeFromOffset, h2]
  rfl

theorem fromIgnoresTrailingBytes_witness :
    nodeFrom dummyCodec ([0, 5] ++ [9, 9]) = .ok (.int 5) :=
  fromIgnoresTrailingBytes dummyCodec dummyCodec_dec_ext [0, 5] [9, 9]
    (.int 5) 2 rfl
